import Mathlib

/-!
# Hill cipher (`main.go`): shallow embedding and verified properties

The Go program is embedded as pure Lean functions.

* A Go `string` is its sequence of bytes (`GoString`); `len` is the byte count.  Ranging
  over a string yields runes, but every rune that is not one of `A`..`Z` misses the
  `alphabet` map and makes the function return at once, so the byte view loses nothing.
* A Go `int` is `Int`; `%` and `/` are the truncating `Int.tmod` and `Int.tdiv`.
* `*mat.Dense` (gonum) is `Dense`: dimensions plus row-major data.  The key matrix, the
  text vectors, their products and the reduced matrices hold integers that a `float64` cell
  stores exactly, and `math.Round` of such a value is the value itself.
* The determinant is the one idealisation.  The program calls gonum `mat.Det`, a `float64`
  obtained as `exp` of the sum of the logarithms of the pivots of an LU factorisation, and
  rounds it (`int(math.Round(det))`); its cofactors stay unrounded `float64` values until
  `applyMod26ToMatrices`.  `Det` is the exact determinant instead.  The two agree where
  rounding recovers the exact value, as in the 2-by-2 scenarios, and part on large keys: a
  `float64` of magnitude `2^53` or more is an even integer, so a determinant or cofactor of
  that size loses its residue mod 26.  The theorems that rest on the value of a determinant
  stand in the section on exact arithmetic and describe the program only where its
  determinants are exact.  The theorems of the last section evaluate 2-by-2 scenarios,
  relate a result to the value `Det` returns, or do not depend on any determinant.
* A Go call either returns a value, returns an `error`, or panics: `Result`.
* The global maps `alphabet` and `reverseAlphabet` are in the state
  `initializeAlphabetMaps` leaves them in (`main` calls it before anything else).
* Printing (`fmt.Printf`, `printMatrix`) has no effect on results and is left out.
-/

namespace Hill

/-! ## Results, errors, panics -/

/-- Where an error has been wrapped with `fmt.Errorf("...: %w", err)`. -/
inductive Wrap where
  | couldNotCreateKeyMatrix
  | couldNotCalculateInverseKey
  | plaintextToVectors
  | encryptedVectorsToText
  | ciphertextToVectors
  | decryptedVectorsToText
  | cannotFindModularInverse
  | failedAdjugate
  deriving DecidableEq

/-- The `error` values the program creates (message payloads that are runes are left out). -/
inductive Error where
  | invalidCharacterInKey
  | invalidCharacterInText
  | expectedColumnVectors (r c : Nat)
  | invalidNumericalValue (val : Int)
  | determinantZeroMod26
  | noModularInverse (n modulus : Int)
  | mustBeSquare
  | wrapped (w : Wrap) (inner : Error)
  deriving DecidableEq

/-- The run-time panics reachable from the modelled code. -/
inductive Panic where
  | matZeroLength
  | matNegativeDimension
  | matShape
  | matSquare
  | divideByZero
  | makeLenOutOfRange
  | negativeRepeatCount
  deriving DecidableEq

/-- Outcome of a Go call. -/
inductive Result (α : Type) where
  | ok (a : α)
  | error (e : Error)
  | panic (p : Panic)
  deriving DecidableEq

namespace Result

/-- Sequencing: an error or a panic ends the computation. -/
def bind {α β : Type} (x : Result α) (f : α → Result β) : Result β :=
  match x with
  | ok a => f a
  | error e => error e
  | panic p => panic p

instance : Monad Result where
  pure := Result.ok
  bind := Result.bind

/-- The call `fmt.Errorf("<w>: %w", err)` on the error branch of a call. -/
def wrap {α : Type} (w : Wrap) (x : Result α) : Result α :=
  match x with
  | ok a => ok a
  | error e => error (Error.wrapped w e)
  | panic p => panic p

/-- The call returned a value. -/
def isOk {α : Type} (x : Result α) : Bool :=
  match x with
  | ok _ => true
  | _ => false

/-- The call returned a non-nil `error`. -/
def isError {α : Type} (x : Result α) : Bool :=
  match x with
  | error _ => true
  | _ => false

/-- The call panicked. -/
def isPanic {α : Type} (x : Result α) : Bool :=
  match x with
  | panic _ => true
  | _ => false

end Result

/-! ## Strings and the alphabet maps -/

/-- A Go string: a sequence of bytes. -/
abbrev GoString := List UInt8

/-- Go `len(s)`. -/
def len (s : GoString) : Int := (s.length : Int)

/-- Go `s[lo:hi]` for `0 ≤ lo ≤ hi ≤ len(s)`. -/
def slice (s : GoString) (lo hi : Nat) : GoString := (s.drop lo).take (hi - lo)

/-- The map `alphabet` after `initializeAlphabetMaps`: `string('A' + i) ↦ i` for `i < 26`. -/
def alphabet : List (UInt8 × Int) :=
  (List.range 26).map (fun (i : Nat) => (UInt8.ofNat (65 + i), (i : Int)))

/-- The map `reverseAlphabet` after `initializeAlphabetMaps`: `i ↦ string('A' + i)`. -/
def reverseAlphabet : List (Int × UInt8) :=
  (List.range 26).map (fun (i : Nat) => ((i : Int), UInt8.ofNat (65 + i)))

/-- The inline reduction `x % 26; if < 0 { += 26 }` of `applyMod26ToMatrices` and
`calculateInverseKeyMatrix`. -/
def reduceMod26 (x : Int) : Int :=
  let m := x.tmod 26
  if m < 0 then m + 26 else m

/-! ## gonum `mat.Dense` -/

/-- A dense matrix: `r` rows, `c` columns, row-major `data`. -/
structure Dense where
  r : Nat
  c : Nat
  data : List Int
  deriving DecidableEq

/-- gonum `mat.NewDense(r, c, data)`; `none` is a nil `data`, giving a zero matrix. -/
def NewDense (r c : Int) (data : Option (List Int)) : Result Dense :=
  if r ≤ 0 ∨ c ≤ 0 then
    if r = 0 ∨ c = 0 then .panic .matZeroLength else .panic .matNegativeDimension
  else
    match data with
    | some d =>
      if r * c ≠ (d.length : Int) then .panic .matShape
      else .ok ⟨r.toNat, c.toNat, d⟩
    | none => .ok ⟨r.toNat, c.toNat, List.replicate (r * c).toNat 0⟩

namespace Dense

/-- gonum `m.At(i, j)` for `i < r`, `j < c`. -/
def At (m : Dense) (i j : Nat) : Int := m.data.getD (i * m.c + j) 0

/-- gonum `m.Set(i, j, v)` for `i < r`, `j < c`. -/
def Set (m : Dense) (i j : Nat) (v : Int) : Dense :=
  { m with data := m.data.set (i * m.c + j) v }

/-- gonum `recv.Mul(a, b)`: the matrix product, stored in the receiver. -/
def Mul (recv a b : Dense) : Result Dense :=
  if a.c ≠ b.r then .panic .matShape
  else if recv.r ≠ a.r ∨ recv.c ≠ b.c then .panic .matShape
  else .ok ⟨a.r, b.c,
    (List.range a.r).flatMap (fun i =>
      (List.range b.c).map (fun j =>
        ((List.range a.c).map (fun k => a.At i k * b.At k j)).sum))⟩

/-- gonum `recv.Scale(f, a)`: every entry of `a` times `f`, stored in the receiver. -/
def Scale (recv : Dense) (f : Int) (a : Dense) : Result Dense :=
  if recv.r ≠ a.r ∨ recv.c ≠ a.c then .panic .matShape
  else .ok ⟨a.r, a.c, a.data.map (fun x => f * x)⟩

end Dense

/-- Laplace expansion along the first row of the `n`-by-`n` array `A`. -/
def laplace : (n : Nat) → (Nat → Nat → Int) → Int
  | 0, _ => 1
  | n + 1, A =>
    ((List.range (n + 1)).map (fun j =>
      (-1) ^ j * A 0 j * laplace n (fun a b => A (a + 1) (if b < j then b else b + 1)))).sum

/-- Modelled from the spec: gonum `mat.Det(m)`, which is not part of this repository, as the
exact determinant ("standard determinant via Laplace cofactor expansion"); it panics on a
non-square matrix.  The library routine returns a `float64` that equals this value only up to
rounding error. -/
def Det (m : Dense) : Result Int :=
  if m.r ≠ m.c then .panic .matSquare
  else .ok (laplace m.r (fun i j => m.At i j))

/-! ## The program -/

/-- The cipher object. -/
structure HillCipher where
  dimension : Int
  keyMatrix : Dense
  inverseKeyMatrix : Dense
  deriving DecidableEq

/-- The body shared by the `range` loops of `stringToMatrix` and `textToVectors`: look every
character up in `alphabet`, returning `err` at the first miss. -/
def lookupValues (err : Error) : GoString → Result (List Int)
  | [] => .ok []
  | ch :: rest =>
    match alphabet.lookup ch with
    | none => .error err
    | some val =>
      match lookupValues err rest with
      | .ok vals => .ok (val :: vals)
      | .error e => .error e
      | .panic p => .panic p

/-- `stringToMatrix(s, dim)`. -/
def stringToMatrix (s : GoString) (dim : Int) : Result Dense := do
  let values ← lookupValues .invalidCharacterInKey s
  NewDense dim dim (some values)

/-- The loop `for i := range numVectors` of `textToVectors`, over the list of its indices. -/
def textToVectorsLoop (text : GoString) (dim : Int) : List Nat → Result (List Dense)
  | [] => .ok []
  | i :: rest =>
    match lookupValues .invalidCharacterInText
        (slice text (i * dim.toNat) ((i + 1) * dim.toNat)) with
    | .error e => .error e
    | .panic p => .panic p
    | .ok values =>
      match NewDense dim 1 (some values) with
      | .error e => .error e
      | .panic p => .panic p
      | .ok v =>
        match textToVectorsLoop text dim rest with
        | .ok vs => .ok (v :: vs)
        | .error e => .error e
        | .panic p => .panic p

/-- `textToVectors(text, dim)`. -/
def textToVectors (text : GoString) (dim : Int) : Result (List Dense) :=
  if dim = 0 then .panic .divideByZero
  else
    let numVectors := (len text).tdiv dim
    if numVectors < 0 then .panic .makeLenOutOfRange
    else textToVectorsLoop text dim (List.range numVectors.toNat)

/-- The inner loop `for i := range r` of `vectorsToText` on one vector. -/
def vectorToTextLoop (v : Dense) : List Nat → Result GoString
  | [] => .ok []
  | i :: rest =>
    match reverseAlphabet.lookup (v.At i 0) with
    | none => .error (.invalidNumericalValue (v.At i 0))
    | some ch =>
      match vectorToTextLoop v rest with
      | .ok s => .ok (ch :: s)
      | .error e => .error e
      | .panic p => .panic p

/-- `vectorsToText(vectors)`. -/
def vectorsToText : List Dense → Result GoString
  | [] => .ok []
  | v :: rest =>
    if v.c ≠ 1 then .error (.expectedColumnVectors v.r v.c)
    else
      match vectorToTextLoop v (List.range v.r) with
      | .error e => .error e
      | .panic p => .panic p
      | .ok s =>
        match vectorsToText rest with
        | .ok t => .ok (s ++ t)
        | .error e => .error e
        | .panic p => .panic p

/-- `padMessage(message, blockSize)`; `strings.Repeat` panics on a negative count. -/
def padMessage (message : GoString) (blockSize : Int) : Result GoString :=
  if blockSize = 0 then .panic .divideByZero
  else if (len message).tmod blockSize = 0 then .ok message
  else
    let paddingNeeded := blockSize - (len message).tmod blockSize
    if paddingNeeded < 0 then .panic .negativeRepeatCount
    else .ok (message ++ List.replicate paddingNeeded.toNat 88)

/-- The two nested loops of `applyMod26ToMatrices` on one matrix. -/
def applyMod26 (m : Dense) : Dense :=
  let r := m.r
  let c := m.c
  (List.range r).foldl (fun m i =>
    (List.range c).foldl (fun m j => m.Set i j (reduceMod26 (m.At i j))) m) m

/-- `applyMod26ToMatrices(matrices)`: the matrices after the in-place update. -/
def applyMod26ToMatrices (matrices : List Dense) : List Dense :=
  matrices.map applyMod26

/-- `calculateModInverse(n, modulus)`. -/
def calculateModInverse (n modulus : Int) : Result Int :=
  match ((List.range modulus.toNat).drop 1).find? (fun i => (n * (i : Int)).tmod modulus = 1) with
  | some i => .ok (i : Int)
  | none => .error (.noModularInverse n modulus)

/-- The data of `subMatrix` in `calculateAdjugate`: the entries of `m` outside row `i` and
column `j`, in row-major order. -/
def subMatrixData (m : Dense) (i j : Nat) : List Int :=
  ((List.range m.r).filter (fun origI => origI ≠ i)).flatMap (fun origI =>
    ((List.range m.c).filter (fun origJ => origJ ≠ j)).map (fun origJ => m.At origI origJ))

/-- `calculateAdjugate(m)`, every minor being the exact determinant `Det`; the program's
cells are the unrounded `float64` results of `mat.Det`. -/
def calculateAdjugate (m : Dense) : Result Dense :=
  if m.r ≠ m.c then .error .mustBeSquare
  else do
    let adjugate ← NewDense m.r m.c none
    if m.r = 1 then
      return adjugate.Set 0 0 1
    else
      (List.range m.r).foldlM (fun adjugate i =>
        (List.range m.c).foldlM (fun adjugate j => do
          let subMatrix ← NewDense ((m.r : Int) - 1) ((m.c : Int) - 1)
            (some (subMatrixData m i j))
          let minor ← Det subMatrix
          let cofactor := (-1) ^ (i + j) * minor
          return adjugate.Set j i cofactor) adjugate) adjugate

/-- `calculateInverseKeyMatrix(m)`, with `int(math.Round(mat.Det(m)))` and the cofactors
taken from the exact determinant `Det`. -/
def calculateInverseKeyMatrix (m : Dense) : Result Dense := do
  let det ← Det m
  let modDet := reduceMod26 det
  if modDet = 0 then
    Result.error .determinantZeroMod26
  else
    let detInverse ← (calculateModInverse modDet 26).wrap .cannotFindModularInverse
    let adjugate ← (calculateAdjugate m).wrap .failedAdjugate
    let inverseMatrix ← NewDense m.r m.c none
    let inverseMatrix ← inverseMatrix.Scale detInverse adjugate
    return applyMod26 inverseMatrix

/-- `NewHillCipher(key, dimension)`. -/
def NewHillCipher (key : GoString) (dimension : Int) : Result HillCipher := do
  let keyMatrix ← (stringToMatrix key dimension).wrap .couldNotCreateKeyMatrix
  let inverseKeyMatrix ← (calculateInverseKeyMatrix keyMatrix).wrap .couldNotCalculateInverseKey
  return { dimension := dimension, keyMatrix := keyMatrix, inverseKeyMatrix := inverseKeyMatrix }

/-- The loop of `Encrypt` and `Decrypt` that multiplies every vector by the matrix `k`. -/
def mulVectors (dimension : Int) (k : Dense) : List Dense → Result (List Dense)
  | [] => .ok []
  | p :: rest =>
    match NewDense dimension 1 none with
    | .error e => .error e
    | .panic q => .panic q
    | .ok c =>
      match c.Mul k p with
      | .error e => .error e
      | .panic q => .panic q
      | .ok c =>
        match mulVectors dimension k rest with
        | .ok cs => .ok (c :: cs)
        | .error e => .error e
        | .panic q => .panic q

/-- `(hc *HillCipher).Encrypt(plaintext)`. -/
def HillCipher.Encrypt (hc : HillCipher) (plaintext : GoString) : Result GoString :=
  if plaintext = [] then .ok []
  else do
    let paddedText ← padMessage plaintext hc.dimension
    let vectors ← (textToVectors paddedText hc.dimension).wrap .plaintextToVectors
    let encryptedVectors ← mulVectors hc.dimension hc.keyMatrix vectors
    let encryptedVectors := applyMod26ToMatrices encryptedVectors
    (vectorsToText encryptedVectors).wrap .encryptedVectorsToText

/-- `(hc *HillCipher).Decrypt(ciphertext)`. -/
def HillCipher.Decrypt (hc : HillCipher) (ciphertext : GoString) : Result GoString :=
  if ciphertext = [] then .ok []
  else do
    let vectors ← (textToVectors ciphertext hc.dimension).wrap .ciphertextToVectors
    let decryptedVectors ← mulVectors hc.dimension hc.inverseKeyMatrix vectors
    let decryptedVectors := applyMod26ToMatrices decryptedVectors
    (vectorsToText decryptedVectors).wrap .decryptedVectorsToText

/-- Every byte is one of `A`..`Z`. -/
def isUpperAZ (s : GoString) : Prop := ∀ ch ∈ s, 65 ≤ ch.toNat ∧ ch.toNat ≤ 90

instance (s : GoString) : Decidable (isUpperAZ s) := by
  unfold isUpperAZ; infer_instance

/-! ## Auxiliary definitions used in the statements and proofs -/

/-- The letter code of a byte: its distance from `A`. -/
def code (b : UInt8) : Int := (b.toNat : Int) - 65

/-- The letter with a given code. -/
def letter (v : Int) : UInt8 := UInt8.ofNat (65 + v.toNat)

/-- The `n`-by-`n` matrix of the entries `m.At i j`. -/
def toMat (n : Nat) (m : Dense) : Matrix (Fin n) (Fin n) ℤ :=
  Matrix.of fun i j => m.At i.val j.val

/-- The index skipping `i`: the `a`-th element of `0, 1, ..` without `i`. -/
def skip (i a : Nat) : Nat := if a < i then a else a + 1

/-- One pass of in-place updates over the positions `pos x`, `x ∈ l`: what it computes. -/
def setLoop {α : Type} (pos : α → Nat) (G : α → Int → Int) (l : List α) (d : List Int) :
    List Int :=
  l.foldl (fun d x => d.set (pos x) (G x (d.getD (pos x) 0))) d

/-- The pairs `(i, j)` in the order two nested `range` loops visit them. -/
def loopPairs (r c : Nat) : List (Nat × Nat) :=
  (List.range r).flatMap (fun i => (List.range c).map (fun j => (i, j)))

/-- The cofactor computed in the loop body of `calculateAdjugate`. -/
def cofactor (m : Dense) (i j : Nat) : Int :=
  (-1) ^ (i + j) * (toMat (m.r - 1) ⟨m.r - 1, m.c - 1, subMatrixData m i j⟩).det

/-- What `calculateModInverse(a, 26)` is checked against: a result is an inverse and exists
exactly for `a` coprime to 26. -/
def modInverseCheck (a : Int) : Bool :=
  match calculateModInverse a 26 with
  | .ok i => decide ((a * i) % 26 = 1 ∧ Int.gcd a 26 = 1)
  | .error e => decide (Int.gcd a 26 ≠ 1 ∧ e = .noModularInverse a 26)
  | .panic _ => false

/-- The entries of `m`, read modulo 26. -/
def castMat (n : Nat) (m : Dense) : Matrix (Fin n) (Fin n) (ZMod 26) :=
  (Int.castRingHom (ZMod 26)).mapMatrix (toMat n m)

/-- The first `q` consecutive blocks of `n` bytes of a text. -/
def chunks (n : Nat) : Nat → GoString → List GoString
  | 0, _ => []
  | q + 1, t => t.take n :: chunks n q (t.drop n)

/-- One block through the cipher with matrix `M`: the letters of `M * block` mod 26. -/
def cryptBlock (M : Dense) (n : Nat) (blk : GoString) : GoString :=
  (List.range n).map (fun i => letter (reduceMod26
    (((List.range n).map (fun k => M.At i k * (blk.map code).getD k 0)).sum)))

/-- A text through the cipher with matrix `M`, block by block; a trailing partial block is
dropped. -/
def cryptText (M : Dense) (n : Nat) (t : GoString) : GoString :=
  (chunks n (t.length / n) t).flatMap (cryptBlock M n)

/-- The column `M * p` as `Mul` stores it, for a column vector `p`. -/
def mulCol (M : Dense) (n : Nat) (p : Dense) : Dense :=
  ⟨n, 1, (List.range n).map (fun i => ((List.range n).map (fun k => M.At i k * p.At k 0)).sum)⟩

/-- The steps shared by `Encrypt` and `Decrypt` after padding, with matrix `M`. -/
def cryptSteps (dimension : Int) (M : Dense) (w1 w2 : Wrap) (t : GoString) : Result GoString := do
  let vectors ← (textToVectors t dimension).wrap w1
  let outVectors ← mulVectors dimension M vectors
  let outVectors := applyMod26ToMatrices outVectors
  (vectorsToText outVectors).wrap w2

/-- The message with the `'X'` padding `padMessage` appends. -/
def padded (message : GoString) (n : Nat) : GoString :=
  message ++ List.replicate ((n - message.length % n) % n) 88

/-- The minor of the spec: the determinant of the `n`-by-`n` matrix `M` with row `i` and
column `j` removed. -/
def minorSpec (n : Nat) (M : Dense) (i j : Nat) : Int :=
  laplace (n - 1) (fun a b => M.At (skip i a) (skip j b))

/-- The adjugate as the spec words it: the `n`-by-`n` matrix whose entry `(j, i)` is the
cofactor `C(i,j) = (-1)^(i+j) * minor(i,j)`. -/
def adjugateSpec (n : Nat) (M : Dense) : Dense :=
  ⟨n, n, (List.range n).flatMap (fun j =>
    (List.range n).map (fun i => (-1) ^ (i + j) * minorSpec n M i j))⟩

/-! ## Basic facts about the embedding -/

@[simp] theorem Result.ok_bind {α β : Type} (a : α) (f : α → Result β) :
    (Result.ok a >>= f) = f a := rfl

@[simp] theorem Result.error_bind {α β : Type} (e : Error) (f : α → Result β) :
    ((Result.error e : Result α) >>= f) = Result.error e := rfl

@[simp] theorem Result.panic_bind {α β : Type} (p : Panic) (f : α → Result β) :
    ((Result.panic p : Result α) >>= f) = Result.panic p := rfl

@[simp] theorem Result.pure_eq {α : Type} (a : α) : (pure a : Result α) = Result.ok a := rfl

@[simp] theorem Result.wrap_ok {α : Type} (w : Wrap) (a : α) :
    (Result.ok a).wrap w = Result.ok a := rfl

@[simp] theorem Result.wrap_error {α : Type} (w : Wrap) (e : Error) :
    (Result.error e : Result α).wrap w = Result.error (Error.wrapped w e) := rfl

@[simp] theorem Result.wrap_panic {α : Type} (w : Wrap) (p : Panic) :
    (Result.panic p : Result α).wrap w = Result.panic p := rfl

theorem UInt8_ofNat_toNat (b : UInt8) : UInt8.ofNat b.toNat = b :=
  UInt8.toNat.inj (UInt8.toNat_ofNat_of_lt b.toNat_lt_size)

set_option maxRecDepth 100000 in
theorem alphabet_lookup_fin : ∀ n : Fin 256, alphabet.lookup (UInt8.ofNat n.val) =
    if 65 ≤ n.val ∧ n.val ≤ 90 then some ((n.val : Int) - 65) else none := by
  decide

theorem alphabet_lookup (b : UInt8) : alphabet.lookup b =
    if 65 ≤ b.toNat ∧ b.toNat ≤ 90 then some (code b) else none := by
  have h := alphabet_lookup_fin ⟨b.toNat, b.toNat_lt_size⟩
  simp only [UInt8_ofNat_toNat] at h
  exact h

set_option maxRecDepth 100000 in
theorem reverseAlphabet_lookup_fin : ∀ n : Fin 26,
    reverseAlphabet.lookup (n.val : Int) = some (letter (n.val : Int)) := by
  decide

theorem reverseAlphabet_lookup (v : Int) : reverseAlphabet.lookup v =
    if 0 ≤ v ∧ v ≤ 25 then some (letter v) else none := by
  split
  · rename_i h
    have h2 := reverseAlphabet_lookup_fin ⟨v.toNat, by omega⟩
    have h3 : ((v.toNat : Nat) : Int) = v := by omega
    simp only [h3] at h2
    exact h2
  · rename_i h
    rw [List.lookup_eq_none_iff]
    intro p hp
    simp only [reverseAlphabet, List.mem_map, List.mem_range] at hp
    obtain ⟨i, hi, rfl⟩ := hp
    simp only [bne_iff_ne, ne_eq]
    omega

theorem code_letter (v : Int) (h0 : 0 ≤ v) (h1 : v ≤ 25) : code (letter v) = v := by
  unfold code letter
  rw [UInt8.toNat_ofNat_of_lt (by simp only [UInt8.size]; omega)]
  omega

theorem letter_code (b : UInt8) (h : 65 ≤ b.toNat ∧ b.toNat ≤ 90) : letter (code b) = b := by
  unfold code letter
  have : 65 + ((b.toNat : Int) - 65).toNat = b.toNat := by omega
  rw [this, UInt8_ofNat_toNat]

theorem letter_upper (v : Int) (h0 : 0 ≤ v) (h1 : v ≤ 25) :
    65 ≤ (letter v).toNat ∧ (letter v).toNat ≤ 90 := by
  unfold letter
  rw [UInt8.toNat_ofNat_of_lt (by simp only [UInt8.size]; omega)]
  omega

theorem code_range (b : UInt8) (h : 65 ≤ b.toNat ∧ b.toNat ≤ 90) : 0 ≤ code b ∧ code b ≤ 25 := by
  unfold code; omega

theorem isUpperAZ_cons (b : UInt8) (s : GoString) :
    isUpperAZ (b :: s) ↔ (65 ≤ b.toNat ∧ b.toNat ≤ 90) ∧ isUpperAZ s := by
  simp [isUpperAZ]

theorem lookupValues_upper (err : Error) (s : GoString) (h : isUpperAZ s) :
    lookupValues err s = .ok (s.map code) := by
  induction s with
  | nil => rfl
  | cons b s ih =>
    rw [isUpperAZ_cons] at h
    simp only [lookupValues, alphabet_lookup, h.1, and_self, if_true, ih h.2, List.map_cons]

theorem lookupValues_not_upper (err : Error) (s : GoString) (h : ¬ isUpperAZ s) :
    lookupValues err s = .error err := by
  induction s with
  | nil => exact absurd (by simp [isUpperAZ]) h
  | cons b s ih =>
    rw [isUpperAZ_cons] at h
    by_cases hb : 65 ≤ b.toNat ∧ b.toNat ≤ 90
    · have hs : ¬ isUpperAZ s := fun hs => h ⟨hb, hs⟩
      simp only [lookupValues, alphabet_lookup, hb, and_self, if_true, ih hs]
    · simp only [lookupValues, alphabet_lookup, hb, if_false]

theorem reduceMod26_eq_emod (x : Int) : reduceMod26 x = x % 26 := by
  unfold reduceMod26
  simp only
  cases x with
  | ofNat n =>
    have h : (Int.ofNat n).tmod 26 = ((n % 26 : Nat) : Int) := rfl
    rw [h]
    have : Int.ofNat n = (n : Int) := rfl
    rw [this]
    split <;> omega
  | negSucc n =>
    have h : (Int.negSucc n).tmod 26 = -(((n + 1) % 26 : Nat) : Int) := rfl
    rw [h]
    have : Int.negSucc n = -((n : Int) + 1) := Int.negSucc_eq n
    rw [this]
    split <;> omega

/-! ## `mat.NewDense` and `stringToMatrix` -/

theorem NewDense_some (n m : Nat) (hn : 0 < n) (hm : 0 < m) (d : List Int)
    (hd : d.length = n * m) :
    NewDense (n : Int) (m : Int) (some d) = .ok ⟨n, m, d⟩ := by
  unfold NewDense
  have h1 : ¬ ((n : Int) ≤ 0 ∨ (m : Int) ≤ 0) := by omega
  have h2 : ¬ ((n : Int) * (m : Int) ≠ (d.length : Int)) := by
    rw [hd]; push_cast; simp
  simp only [h1, if_false, h2, Int.toNat_ofNat]

theorem NewDense_none (n m : Nat) (hn : 0 < n) (hm : 0 < m) :
    NewDense (n : Int) (m : Int) none = .ok ⟨n, m, List.replicate (n * m) 0⟩ := by
  unfold NewDense
  have h1 : ¬ ((n : Int) ≤ 0 ∨ (m : Int) ≤ 0) := by omega
  have h3 : ((n : Int) * (m : Int)).toNat = n * m := by
    rw [← Int.natCast_mul]; exact Int.toNat_ofNat _
  simp only [h1, if_false, Int.toNat_ofNat, h3]

theorem stringToMatrix_upper (s : GoString) (dim : Int) (h : isUpperAZ s) :
    stringToMatrix s dim = NewDense dim dim (some (s.map code)) := by
  simp only [stringToMatrix, lookupValues_upper _ s h, Result.ok_bind]

theorem stringToMatrix_not_upper (s : GoString) (dim : Int) (h : ¬ isUpperAZ s) :
    stringToMatrix s dim = .error .invalidCharacterInKey := by
  simp only [stringToMatrix, lookupValues_not_upper _ s h, Result.error_bind]

theorem newCipher_panics_on_shape (key : GoString) (n : Int) (hn : 0 < n)
    (hkey : isUpperAZ key) (hlen : len key ≠ n * n) :
    NewHillCipher key n = .panic .matShape := by
  have h1 : ¬ (n ≤ 0 ∨ n ≤ 0) := by omega
  have h2 : n * n ≠ ((key.map code).length : Int) := by
    rw [List.length_map]; exact fun h => hlen h.symm
  simp only [NewHillCipher, stringToMatrix_upper key n hkey, NewDense, h1, if_false, h2,
    ne_eq, not_false_eq_true, if_true, Result.wrap_panic, Result.panic_bind]

theorem newCipher_panics_on_dimension (key : GoString) (n : Int) (hn : n ≤ 0)
    (hkey : isUpperAZ key) :
    NewHillCipher key n = .panic (if n = 0 then .matZeroLength else .matNegativeDimension) := by
  have h1 : n ≤ 0 ∨ n ≤ 0 := Or.inl hn
  by_cases h0 : n = 0
  · subst h0
    simp only [NewHillCipher, stringToMatrix_upper key 0 hkey, NewDense, h1, if_true,
      or_self, Result.wrap_panic, Result.panic_bind]
  · simp only [NewHillCipher, stringToMatrix_upper key n hkey, NewDense, h1, if_true, h0,
      or_self, if_false, Result.wrap_panic, Result.panic_bind]

theorem sum_range_eq_sum_fin (n : Nat) (f : Nat → Int) :
    ((List.range n).map f).sum = ∑ i : Fin n, f i.val := by
  induction n with
  | zero => simp
  | succ n ih =>
    rw [List.sum_range_succ, ih, Fin.sum_univ_castSucc]
    simp

theorem laplace_eq_det (n : Nat) (A : Nat → Nat → Int) :
    laplace n A = (Matrix.of fun (i j : Fin n) => A i.val j.val).det := by
  induction n generalizing A with
  | zero => simp [laplace]
  | succ n ih =>
    rw [Matrix.det_succ_row_zero, laplace, sum_range_eq_sum_fin]
    refine Finset.sum_congr rfl ?_
    intro j _
    rw [ih]
    congr 2
    ext a b
    simp only [Matrix.of_apply, Matrix.submatrix_apply, Fin.val_succ, Fin.succAbove]
    by_cases h : b.val < j.val
    · have h2 : b.castSucc < j := by
        rw [Fin.lt_def]; simpa using h
      simp [h, h2]
    · have h2 : ¬ b.castSucc < j := by
        rw [Fin.lt_def]; simpa using h
      simp [h, h2]

theorem Det_square (n : Nat) (m : Dense) (hr : m.r = n) (hc : m.c = n) :
    Det m = .ok (toMat n m).det := by
  subst hr
  unfold Det
  have h : ¬ (m.r ≠ m.c) := by omega
  simp only [h, if_false, laplace_eq_det]
  rfl

/-! ## Lists indexed as row-major tables -/

theorem length_table (r c : Nat) (f : Nat → Nat → Int) :
    ((List.range r).flatMap (fun a => (List.range c).map (fun b => f a b))).length = r * c := by
  induction r with
  | zero => simp
  | succ r ih =>
    rw [List.range_succ, List.flatMap_append, List.length_append, ih]
    simp [Nat.succ_mul]

theorem getD_table (r c : Nat) (f : Nat → Nat → Int) (a b : Nat) (ha : a < r) (hb : b < c) :
    ((List.range r).flatMap (fun a => (List.range c).map (fun b => f a b))).getD (a * c + b) 0
      = f a b := by
  induction r with
  | zero => omega
  | succ r ih =>
    rw [List.range_succ, List.flatMap_append, List.getD_eq_getElem?_getD]
    by_cases h : a < r
    · have hlt : a * c + b < r * c := by
        have : (a + 1) * c ≤ r * c := Nat.mul_le_mul_right c h
        rw [Nat.succ_mul] at this
        omega
      rw [List.getElem?_append_left (by rw [length_table]; exact hlt),
        ← List.getD_eq_getElem?_getD]
      exact ih h
    · have hEq : a = r := by omega
      subst hEq
      rw [List.getElem?_append_right (by rw [length_table]; omega), length_table]
      simp [hb]

theorem filter_ne_range (n i : Nat) (hi : i < n) :
    (List.range n).filter (fun o => o ≠ i) = (List.range (n - 1)).map (skip i) := by
  induction n with
  | zero => omega
  | succ n ih =>
    rw [List.range_succ, List.filter_append]
    by_cases h : i < n
    · rw [ih h]
      have hn : n + 1 - 1 = (n - 1) + 1 := by omega
      rw [hn, List.range_succ, List.map_append]
      have : skip i (n - 1) = n := by unfold skip; split <;> omega
      simp [this]
      omega
    · have hEq : i = n := by omega
      subst hEq
      have h1 : (List.range i).filter (fun o => decide (o ≠ i)) = List.range i := by
        rw [List.filter_eq_self]
        intro a ha
        rw [List.mem_range] at ha
        simp; omega
      rw [h1]
      simp only [ne_eq, not_true_eq_false, decide_False, Bool.false_eq_true, not_false_eq_true,
        List.filter_cons_of_neg, List.filter_nil, List.append_nil, Nat.add_sub_cancel]
      symm
      conv_rhs => rw [← List.map_id (List.range i)]
      apply List.map_congr_left
      intro a ha
      rw [List.mem_range] at ha
      unfold skip; simp [ha]

theorem subMatrixData_eq (n : Nat) (m : Dense) (hr : m.r = n) (hc : m.c = n) (i j : Nat)
    (hi : i < n) (hj : j < n) :
    subMatrixData m i j = (List.range (n - 1)).flatMap (fun a =>
      (List.range (n - 1)).map (fun b => m.At (skip i a) (skip j b))) := by
  unfold subMatrixData
  rw [hr, hc, filter_ne_range n i hi, filter_ne_range n j hj]
  simp [List.flatMap_map, List.map_map, Function.comp_def]

/-! ## Loops of `Set` -/

theorem getD_set_ne (d : List Int) (p q : Nat) (v : Int) (h : p ≠ q) :
    (d.set p v).getD q 0 = d.getD q 0 := by
  rw [List.getD_eq_getElem?_getD, List.getD_eq_getElem?_getD, List.getElem?_set]
  simp [h]

theorem getD_set_eq (d : List Int) (p : Nat) (v : Int) (h : p < d.length) :
    (d.set p v).getD p 0 = v := by
  rw [List.getD_eq_getElem?_getD, List.getElem?_set]
  simp [h]

theorem setLoop_length {α : Type} (pos : α → Nat) (G : α → Int → Int) (l : List α)
    (d : List Int) : (setLoop pos G l d).length = d.length := by
  induction l generalizing d with
  | nil => rfl
  | cons y l ih =>
    show (setLoop pos G l _).length = _
    rw [ih, List.length_set]

theorem setLoop_getD_not_mem {α : Type} (pos : α → Nat) (G : α → Int → Int) (l : List α)
    (d : List Int) (q : Nat) (hq : ∀ x ∈ l, pos x ≠ q) :
    (setLoop pos G l d).getD q 0 = d.getD q 0 := by
  induction l generalizing d with
  | nil => rfl
  | cons y l ih =>
    show (setLoop pos G l _).getD q 0 = _
    rw [ih _ (fun x hx => hq x (List.mem_cons_of_mem _ hx)),
      getD_set_ne _ _ _ _ (hq y (List.mem_cons_self _ _))]

theorem setLoop_getD_mem {α : Type} (pos : α → Nat) (G : α → Int → Int) (l : List α)
    (d : List Int) (hinj : l.Pairwise (fun x y => pos x ≠ pos y))
    (x : α) (hx : x ∈ l) (hlt : pos x < d.length) :
    (setLoop pos G l d).getD (pos x) 0 = G x (d.getD (pos x) 0) := by
  induction l generalizing d with
  | nil => cases hx
  | cons y l ih =>
    rw [List.pairwise_cons] at hinj
    show (setLoop pos G l _).getD (pos x) 0 = _
    rcases List.mem_cons.mp hx with rfl | hxl
    · rw [setLoop_getD_not_mem _ _ _ _ _ (fun z hz => (hinj.1 z hz).symm), getD_set_eq _ _ _ hlt]
    · rw [ih _ hinj.2 hxl (by rw [List.length_set]; exact hlt),
        getD_set_ne _ _ _ _ (hinj.1 x hxl)]

theorem mem_loopPairs (r c : Nat) (x : Nat × Nat) :
    x ∈ loopPairs r c ↔ x.1 < r ∧ x.2 < c := by
  unfold loopPairs
  simp only [List.mem_flatMap, List.mem_range, List.mem_map]
  constructor
  · rintro ⟨i, hi, j, hj, rfl⟩; exact ⟨hi, hj⟩
  · rintro ⟨h1, h2⟩; exact ⟨x.1, h1, x.2, h2, rfl⟩

theorem foldl_nested {σ : Type} (r c : Nat) (f : σ → Nat → Nat → σ) (s : σ) :
    (List.range r).foldl (fun s i => (List.range c).foldl (fun s j => f s i j) s) s
      = (loopPairs r c).foldl (fun s x => f s x.1 x.2) s := by
  unfold loopPairs
  generalize List.range r = l
  induction l generalizing s with
  | nil => rfl
  | cons i l ih =>
    rw [List.foldl_cons, ih, List.flatMap_cons, List.foldl_append, List.foldl_map]

theorem index_inj (c i j i2 j2 : Nat) (hj : j < c) (hj2 : j2 < c)
    (h : i * c + j = i2 * c + j2) : i = i2 ∧ j = j2 := by
  have h1 : (i * c + j) % c = j := by
    rw [Nat.add_comm, Nat.add_mul_mod_self_right, Nat.mod_eq_of_lt hj]
  have h2 : (i2 * c + j2) % c = j2 := by
    rw [Nat.add_comm, Nat.add_mul_mod_self_right, Nat.mod_eq_of_lt hj2]
  have hjj : j = j2 := by rw [← h1, ← h2, h]
  subst hjj
  have hc : 0 < c := by omega
  have h3 : i * c = i2 * c := by omega
  exact ⟨Nat.eq_of_mul_eq_mul_right hc h3, rfl⟩

theorem loopPairs_pairwise (r c : Nat) (pos : Nat × Nat → Nat)
    (hinj : ∀ x y : Nat × Nat, x.1 < r → x.2 < c → y.1 < r → y.2 < c → pos x = pos y → x = y) :
    (loopPairs r c).Pairwise (fun x y => pos x ≠ pos y) := by
  have hnd : (loopPairs r c).Nodup := by
    unfold loopPairs
    exact List.Nodup.product (List.nodup_range r) (List.nodup_range c)
  refine List.Pairwise.imp_of_mem ?_ hnd
  intro x y hx hy hne hpos
  rw [mem_loopPairs] at hx hy
  exact hne (hinj x y hx.1 hx.2 hy.1 hy.2 hpos)

theorem foldl_Set_eq (r c : Nat) (a b : Nat × Nat → Nat) (G : Nat × Nat → Int → Int)
    (l : List (Nat × Nat)) (d : List Int) :
    l.foldl (fun (s : Dense) x => s.Set (a x) (b x) (G x (s.At (a x) (b x)))) ⟨r, c, d⟩
      = ⟨r, c, setLoop (fun x => a x * c + b x) G l d⟩ := by
  induction l generalizing d with
  | nil => rfl
  | cons y l ih =>
    rw [List.foldl_cons]
    exact ih _

theorem getD_map_lt (d : List Int) (g : Int → Int) (p : Nat) (h : p < d.length) :
    (d.map g).getD p 0 = g (d.getD p 0) := by
  rw [List.getD_eq_getElem _ _ (by rw [List.length_map]; exact h), List.getD_eq_getElem _ _ h,
    List.getElem_map]

theorem applyMod26_eq (m : Dense) (h : m.data.length = m.r * m.c) :
    applyMod26 m = ⟨m.r, m.c, m.data.map reduceMod26⟩ := by
  obtain ⟨r, c, d⟩ := m
  simp only at h
  unfold applyMod26
  simp only
  rw [foldl_nested r c (fun (s : Dense) i j => s.Set i j (reduceMod26 (s.At i j)))]
  rw [foldl_Set_eq r c (fun x => x.1) (fun x => x.2) (fun _ v => reduceMod26 v)]
  congr 1
  have hpw : (loopPairs r c).Pairwise
      (fun x y => (fun x : Nat × Nat => x.1 * c + x.2) x ≠ (fun x : Nat × Nat => x.1 * c + x.2) y) := by
    apply loopPairs_pairwise
    intro x y _ hx2 _ hy2 hxy
    have := index_inj c x.1 x.2 y.1 y.2 hx2 hy2 hxy
    exact Prod.ext this.1 this.2
  apply List.ext_getElem
  · rw [setLoop_length, List.length_map]
  · intro p h1 h2
    rw [setLoop_length] at h1
    have hc : 0 < c := by
      rcases Nat.eq_zero_or_pos c with h0 | h0
      · rw [h0, Nat.mul_zero] at h; omega
      · exact h0
    have hp : p / c * c + p % c = p := Nat.div_add_mod' p c
    have hmem : (p / c, p % c) ∈ loopPairs r c := by
      rw [mem_loopPairs]
      refine ⟨?_, Nat.mod_lt _ hc⟩
      show p / c < r
      rw [Nat.div_lt_iff_lt_mul hc]
      omega
    have key := setLoop_getD_mem (fun x : Nat × Nat => x.1 * c + x.2) (fun _ v => reduceMod26 v)
      (loopPairs r c) d hpw (p / c, p % c) hmem (by show p / c * c + p % c < d.length; omega)
    simp only [hp] at key
    rw [List.getD_eq_getElem _ _ (by rw [setLoop_length]; exact h1),
      List.getD_eq_getElem _ _ h1] at key
    rw [key, List.getElem_map]

/-! ## `calculateAdjugate` -/

theorem foldlM_ok {α β : Type} (l : List α) (f : β → α → Result β) (g : β → α → β)
    (h : ∀ s, ∀ x ∈ l, f s x = .ok (g s x)) (s : β) :
    l.foldlM f s = .ok (l.foldl g s) := by
  induction l generalizing s with
  | nil => rfl
  | cons y l ih =>
    rw [List.foldlM_cons, h s y (List.mem_cons_self _ _), Result.ok_bind, List.foldl_cons]
    exact ih (fun s x hx => h s x (List.mem_cons_of_mem _ hx)) _

theorem adjugate_body (n : Nat) (d : List Int) (hn : 2 ≤ n)
    (i j : Nat) (hi : i < n) (hj : j < n) (adjugate : Dense) :
    (do
      let subMatrix ← NewDense (((⟨n, n, d⟩ : Dense).r : Int) - 1)
        (((⟨n, n, d⟩ : Dense).c : Int) - 1) (some (subMatrixData ⟨n, n, d⟩ i j))
      let minor ← Det subMatrix
      let cofactor := (-1) ^ (i + j) * minor
      return adjugate.Set j i cofactor : Result Dense)
      = .ok (adjugate.Set j i (cofactor ⟨n, n, d⟩ i j)) := by
  have h1 : ((n : Int) - 1) = ((n - 1 : Nat) : Int) := by omega
  have hlen : (subMatrixData ⟨n, n, d⟩ i j).length = (n - 1) * (n - 1) := by
    rw [subMatrixData_eq n _ rfl rfl i j hi hj, length_table]
  simp only
  rw [h1, NewDense_some (n - 1) (n - 1) (by omega) (by omega) _ hlen]
  simp only [Result.ok_bind]
  rw [Det_square (n - 1) _ rfl rfl]
  simp only [Result.ok_bind, Result.pure_eq, cofactor]

theorem succAbove_val (k : Nat) (i : Fin (k + 1)) (z : Fin k) :
    (i.succAbove z).val = skip i.val z.val := by
  unfold skip Fin.succAbove
  by_cases h : z.val < i.val
  · have h2 : z.castSucc < i := by rw [Fin.lt_def]; simpa using h
    simp [h, h2]
  · have h2 : ¬ z.castSucc < i := by rw [Fin.lt_def]; simpa using h
    simp [h, h2]

theorem toMat_subMatrix (k : Nat) (d : List Int) (a b : Fin (k + 1)) :
    toMat k ⟨k, k, subMatrixData ⟨k + 1, k + 1, d⟩ b.val a.val⟩
      = (toMat (k + 1) ⟨k + 1, k + 1, d⟩).submatrix b.succAbove a.succAbove := by
  ext x y
  simp only [toMat, Matrix.of_apply, Matrix.submatrix_apply]
  rw [succAbove_val, succAbove_val]
  show (subMatrixData ⟨k + 1, k + 1, d⟩ b.val a.val).getD (x.val * k + y.val) 0 = _
  rw [subMatrixData_eq (k + 1) _ rfl rfl b.val a.val b.isLt a.isLt]
  simp only [Nat.add_sub_cancel]
  rw [getD_table k k _ x.val y.val x.isLt y.isLt]

theorem cofactor_eq_adjugate (k : Nat) (d : List Int) (a b : Fin (k + 1)) :
    cofactor ⟨k + 1, k + 1, d⟩ b.val a.val = (toMat (k + 1) ⟨k + 1, k + 1, d⟩).adjugate a b := by
  rw [Matrix.adjugate_fin_succ_eq_det_submatrix]
  rw [← toMat_subMatrix k d a b]
  rfl

theorem calculateAdjugate_spec (n : Nat) (d : List Int) (hn : 1 ≤ n) :
    ∃ adj, calculateAdjugate ⟨n, n, d⟩ = .ok adj ∧ adj.r = n ∧ adj.c = n ∧
      adj.data.length = n * n ∧
      ∀ a b : Fin n, adj.At a.val b.val = (toMat n ⟨n, n, d⟩).adjugate a b := by
  have hnd : NewDense (n : Int) (n : Int) none = .ok ⟨n, n, List.replicate (n * n) 0⟩ :=
    NewDense_none n n hn hn
  by_cases h1 : n = 1
  · subst h1
    refine ⟨⟨1, 1, [1]⟩, ?_, rfl, rfl, rfl, ?_⟩
    · simp only [calculateAdjugate, ne_eq, not_true_eq_false, if_false, hnd, Result.ok_bind,
        if_true]
      rfl
    · intro a b
      rw [Matrix.adjugate_fin_one]
      have ha : a = 0 := Subsingleton.elim _ _
      have hb : b = 0 := Subsingleton.elim _ _
      subst ha hb
      rfl
  · have hn2 : 2 ≤ n := by omega
    have hbody : ∀ (s : Dense), ∀ i ∈ List.range n,
        (List.range n).foldlM (fun adjugate j => (do
          let subMatrix ← NewDense (((⟨n, n, d⟩ : Dense).r : Int) - 1)
            (((⟨n, n, d⟩ : Dense).c : Int) - 1) (some (subMatrixData ⟨n, n, d⟩ i j))
          let minor ← Det subMatrix
          let cofactor := (-1) ^ (i + j) * minor
          return adjugate.Set j i cofactor : Result Dense)) s
        = .ok ((List.range n).foldl
            (fun adjugate j => adjugate.Set j i (cofactor ⟨n, n, d⟩ i j)) s) := by
      intro s i hi
      rw [List.mem_range] at hi
      apply foldlM_ok
      intro s2 j hj
      rw [List.mem_range] at hj
      exact adjugate_body n d hn2 i j hi hj s2
    have hres : calculateAdjugate ⟨n, n, d⟩ = .ok ⟨n, n,
        setLoop (fun x : Nat × Nat => x.2 * n + x.1) (fun x _ => cofactor ⟨n, n, d⟩ x.1 x.2)
          (loopPairs n n) (List.replicate (n * n) 0)⟩ := by
      simp only [calculateAdjugate, ne_eq, not_true_eq_false, if_false, hnd, Result.ok_bind, h1]
      rw [foldlM_ok _ _ _ hbody,
        foldl_nested n n (fun (s : Dense) i j => s.Set j i (cofactor ⟨n, n, d⟩ i j)),
        foldl_Set_eq n n (fun x => x.2) (fun x => x.1) (fun x _ => cofactor ⟨n, n, d⟩ x.1 x.2)]
    refine ⟨_, hres, rfl, rfl, ?_, ?_⟩
    · simp only [setLoop_length, List.length_replicate]
    · intro a b
      have hpw : (loopPairs n n).Pairwise
          (fun x y => (fun x : Nat × Nat => x.2 * n + x.1) x
            ≠ (fun x : Nat × Nat => x.2 * n + x.1) y) := by
        apply loopPairs_pairwise
        intro x y hx1 _ hy1 _ hxy
        have := index_inj n x.2 x.1 y.2 y.1 hx1 hy1 hxy
        exact Prod.ext this.2 this.1
      have hmem : (b.val, a.val) ∈ loopPairs n n := by
        rw [mem_loopPairs]; exact ⟨b.isLt, a.isLt⟩
      have hlt : a.val * n + b.val < n * n := by
        have : (a.val + 1) * n ≤ n * n := Nat.mul_le_mul_right n a.isLt
        rw [Nat.succ_mul] at this
        have := b.isLt
        omega
      have key := setLoop_getD_mem (fun x : Nat × Nat => x.2 * n + x.1)
        (fun x _ => cofactor ⟨n, n, d⟩ x.1 x.2) (loopPairs n n) (List.replicate (n * n) 0) hpw
        (b.val, a.val) hmem (by rw [List.length_replicate]; exact hlt)
      obtain ⟨k, rfl⟩ : ∃ k, n = k + 1 := ⟨n - 1, by omega⟩
      rw [← cofactor_eq_adjugate k d a b]
      exact key

/-! ## `calculateModInverse` and `calculateInverseKeyMatrix` -/

theorem modInverseCheck_table : ∀ a : Fin 26, modInverseCheck (a.val : Int) = true := by
  decide

theorem reduceMod26_range (x : Int) : 0 ≤ reduceMod26 x ∧ reduceMod26 x ≤ 25 := by
  rw [reduceMod26_eq_emod]; omega

theorem calculateModInverse_reduced (x : Int) :
    (∃ i, calculateModInverse (reduceMod26 x) 26 = .ok i ∧ (x * i) % 26 = 1 ∧
      Int.gcd (reduceMod26 x) 26 = 1) ∨
    (calculateModInverse (reduceMod26 x) 26 = .error (.noModularInverse (reduceMod26 x) 26) ∧
      Int.gcd (reduceMod26 x) 26 ≠ 1) := by
  have hr := reduceMod26_range x
  have hcast : ((⟨(reduceMod26 x).toNat, by omega⟩ : Fin 26).val : Int) = reduceMod26 x := by
    show (((reduceMod26 x).toNat : Nat) : Int) = _
    omega
  have h := modInverseCheck_table ⟨(reduceMod26 x).toNat, by omega⟩
  rw [hcast] at h
  unfold modInverseCheck at h
  cases hc : calculateModInverse (reduceMod26 x) 26 with
  | ok i =>
    rw [hc] at h
    simp only [decide_eq_true_eq] at h
    left
    refine ⟨i, rfl, ?_, h.2⟩
    have h1 := h.1
    rw [reduceMod26_eq_emod, Int.mul_emod, Int.emod_emod_of_dvd _ (dvd_refl _),
      ← Int.mul_emod] at h1
    exact h1
  | error e =>
    rw [hc] at h
    simp only [decide_eq_true_eq] at h
    right
    exact ⟨by rw [h.2], h.1⟩
  | panic p =>
    rw [hc] at h
    simp at h

theorem calculateInverseKeyMatrix_spec (n : Nat) (d : List Int) (hn : 1 ≤ n) :
    (Int.gcd (reduceMod26 (toMat n ⟨n, n, d⟩).det) 26 = 1 ∧
      ∃ inv di, calculateInverseKeyMatrix ⟨n, n, d⟩ = .ok inv ∧
        inv.r = n ∧ inv.c = n ∧ inv.data.length = n * n ∧
        ((toMat n ⟨n, n, d⟩).det * di) % 26 = 1 ∧
        ∀ a b : Fin n, inv.At a.val b.val
          = reduceMod26 (di * (toMat n ⟨n, n, d⟩).adjugate a b)) ∨
    (Int.gcd (reduceMod26 (toMat n ⟨n, n, d⟩).det) 26 ≠ 1 ∧
      ∃ e, calculateInverseKeyMatrix ⟨n, n, d⟩ = .error e ∧
        (reduceMod26 (toMat n ⟨n, n, d⟩).det = 0 → e = .determinantZeroMod26) ∧
        (reduceMod26 (toMat n ⟨n, n, d⟩).det ≠ 0 → e = .wrapped .cannotFindModularInverse
          (.noModularInverse (reduceMod26 (toMat n ⟨n, n, d⟩).det) 26))) := by
  have hdet := Det_square n ⟨n, n, d⟩ rfl rfl
  by_cases h0 : reduceMod26 (toMat n ⟨n, n, d⟩).det = 0
  · right
    refine ⟨by rw [h0]; decide, .determinantZeroMod26, ?_, fun _ => rfl, fun h => absurd h0 h⟩
    simp only [calculateInverseKeyMatrix, hdet, Result.ok_bind, h0, if_true]
  · rcases calculateModInverse_reduced (toMat n ⟨n, n, d⟩).det with ⟨di, hdi, hmul, hg⟩ | ⟨he, hg⟩
    · left
      refine ⟨hg, ?_⟩
      obtain ⟨adj, hadj, har, hac, halen, hAt⟩ := calculateAdjugate_spec n d hn
      have hlen2 : (adj.data.map (fun x => di * x)).length = n * n := by
        rw [List.length_map]; exact halen
      refine ⟨⟨n, n, (adj.data.map (fun x => di * x)).map reduceMod26⟩, di, ?_, rfl, rfl,
        by rw [List.length_map]; exact hlen2, hmul, ?_⟩
      · simp only [calculateInverseKeyMatrix, hdet, Result.ok_bind, h0, if_false, hdi,
          Result.wrap_ok, hadj, NewDense_none n n hn hn, Dense.Scale, har, hac, ne_eq,
          not_true_eq_false, or_self, Result.pure_eq]
        rw [applyMod26_eq _ hlen2]
      · intro a b
        have hlt : a.val * n + b.val < n * n := by
          have : (a.val + 1) * n ≤ n * n := Nat.mul_le_mul_right n a.isLt
          rw [Nat.succ_mul] at this
          have := b.isLt
          omega
        show ((adj.data.map (fun x => di * x)).map reduceMod26).getD (a.val * n + b.val) 0 = _
        rw [getD_map_lt _ _ _ (by rw [hlen2]; exact hlt),
          getD_map_lt _ _ _ (by rw [halen]; exact hlt), ← hAt a b]
        unfold Dense.At
        rw [hac]
    · right
      refine ⟨hg, _, ?_, fun h => absurd h h0, fun _ => rfl⟩
      simp only [calculateInverseKeyMatrix, hdet, Result.ok_bind, h0, if_false, he,
        Result.wrap_error, Result.error_bind]

/-! ## The key matrix and its inverse over `ZMod 26` -/

theorem emod_of_cast_eq (x y : Int) (h : (x : ZMod 26) = (y : ZMod 26)) : x % 26 = y % 26 := by
  have h2 := (ZMod.intCast_eq_intCast_iff x y 26).mp h
  exact h2

theorem cast_emod (x : Int) : ((x % 26 : Int) : ZMod 26) = (x : ZMod 26) := by
  have := ZMod.intCast_mod x 26
  simpa using this

theorem cast_reduceMod26 (x : Int) : ((reduceMod26 x : Int) : ZMod 26) = (x : ZMod 26) := by
  rw [reduceMod26_eq_emod, cast_emod]

theorem castMat_inverse (n : Nat) (K inv : Dense) (di : Int)
    (hmul : ((toMat n K).det * di) % 26 = 1)
    (hAt : ∀ a b : Fin n, inv.At a.val b.val = reduceMod26 (di * (toMat n K).adjugate a b)) :
    castMat n K * castMat n inv = 1 ∧ castMat n inv * castMat n K = 1 := by
  have hinv : castMat n inv = (di : ZMod 26) • (castMat n K).adjugate := by
    unfold castMat
    rw [← RingHom.map_adjugate]
    ext a b
    simp only [RingHom.mapMatrix_apply, Matrix.map_apply, Matrix.smul_apply, smul_eq_mul,
      Int.coe_castRingHom]
    show ((inv.At a.val b.val : Int) : ZMod 26) = _
    rw [hAt, cast_reduceMod26]
    push_cast
    rfl
  have hdet : ((di : ZMod 26)) * (castMat n K).det = 1 := by
    unfold castMat
    rw [← RingHom.map_det]
    simp only [Int.coe_castRingHom]
    rw [← Int.cast_mul, mul_comm]
    have h1 : ((((toMat n K).det * di) % 26 : Int) : ZMod 26) = ((1 : Int) : ZMod 26) := by
      rw [hmul]
    rw [cast_emod] at h1
    rw [h1]
    simp
  constructor
  · rw [hinv, Matrix.mul_smul, Matrix.mul_adjugate, smul_smul, hdet, one_smul]
  · rw [hinv, Matrix.smul_mul, Matrix.adjugate_mul, smul_smul, hdet, one_smul]

/-! ## Blocks of text -/

theorem slice_succ (t : GoString) (n i : Nat) :
    slice t ((i + 1) * n) ((i + 1 + 1) * n) = slice (t.drop n) (i * n) ((i + 1) * n) := by
  unfold slice
  rw [List.drop_drop]
  have h1 : n + i * n = (i + 1) * n := by rw [Nat.succ_mul]; omega
  have h2 : (i + 1 + 1) * n - (i + 1) * n = (i + 1) * n - i * n := by
    simp only [Nat.succ_mul]; omega
  rw [h1, h2]

theorem map_slice_eq_chunks (n q : Nat) (t : GoString) :
    (List.range q).map (fun i => slice t (i * n) ((i + 1) * n)) = chunks n q t := by
  induction q generalizing t with
  | zero => rfl
  | succ q ih =>
    rw [List.range_succ_eq_map, List.map_cons, List.map_map, chunks, ← ih (t.drop n)]
    congr 1
    · simp [slice]
    · apply List.map_congr_left
      intro i _
      exact slice_succ t n i

theorem chunks_flatten (n q : Nat) (t : GoString) :
    (chunks n q t).flatten = t.take (q * n) := by
  induction q generalizing t with
  | zero => simp [chunks]
  | succ q ih =>
    rw [chunks, List.flatten_cons, ih, Nat.succ_mul, Nat.add_comm (q * n) n, List.take_add]

theorem chunks_length (n q : Nat) (t : GoString) (h : q * n ≤ t.length) :
    ∀ c ∈ chunks n q t, c.length = n := by
  induction q generalizing t with
  | zero => intro c hc; cases hc
  | succ q ih =>
    intro c hc
    rw [Nat.succ_mul] at h
    rw [chunks, List.mem_cons] at hc
    rcases hc with rfl | hc
    · rw [List.length_take]; omega
    · exact ih (t.drop n) (by rw [List.length_drop]; omega) c hc

theorem length_chunks (n q : Nat) (t : GoString) : (chunks n q t).length = q := by
  induction q generalizing t with
  | zero => rfl
  | succ q ih => rw [chunks, List.length_cons, ih]

theorem isUpperAZ_append (s t : GoString) :
    isUpperAZ (s ++ t) ↔ isUpperAZ s ∧ isUpperAZ t := by
  simp only [isUpperAZ, List.mem_append]
  constructor
  · intro h; exact ⟨fun c hc => h c (Or.inl hc), fun c hc => h c (Or.inr hc)⟩
  · rintro ⟨h1, h2⟩ c (hc | hc)
    · exact h1 c hc
    · exact h2 c hc

theorem isUpperAZ_flatten (l : List GoString) :
    isUpperAZ l.flatten ↔ ∀ c ∈ l, isUpperAZ c := by
  induction l with
  | nil => simp [isUpperAZ]
  | cons a l ih =>
    rw [List.flatten_cons, isUpperAZ_append, ih]
    simp

theorem chunks_append (n q : Nat) (b t : GoString) (hb : b.length = n) :
    chunks n (q + 1) (b ++ t) = b :: chunks n q t := by
  rw [chunks, List.take_left' hb, List.drop_left' hb]

theorem chunks_flatMap (n : Nat) (g : GoString → GoString) (bs : List GoString)
    (hg : ∀ b ∈ bs, (g b).length = n) :
    chunks n bs.length (bs.flatMap g) = bs.map g := by
  induction bs with
  | nil => rfl
  | cons b bs ih =>
    rw [List.flatMap_cons, List.length_cons,
      chunks_append n bs.length (g b) _ (hg b (List.mem_cons_self _ _)),
      ih (fun c hc => hg c (List.mem_cons_of_mem _ hc)), List.map_cons]

theorem length_flatMap_const (n : Nat) (g : GoString → GoString) (bs : List GoString)
    (hg : ∀ b ∈ bs, (g b).length = n) : (bs.flatMap g).length = bs.length * n := by
  induction bs with
  | nil => simp
  | cons b bs ih =>
    rw [List.flatMap_cons, List.length_append, hg b (List.mem_cons_self _ _),
      ih (fun c hc => hg c (List.mem_cons_of_mem _ hc)), List.length_cons, Nat.succ_mul]
    omega

/-! ## The stages of `Encrypt` and `Decrypt` -/

theorem NewDense_col (n : Nat) (hn : 1 ≤ n) (d : List Int) (hd : d.length = n) :
    NewDense (n : Int) 1 (some d) = .ok ⟨n, 1, d⟩ := by
  have h := NewDense_some n 1 hn (by decide) d (by omega)
  simpa using h

theorem NewDense_col_none (n : Nat) (hn : 1 ≤ n) :
    NewDense (n : Int) 1 none = .ok ⟨n, 1, List.replicate n 0⟩ := by
  have h := NewDense_none n 1 hn (by decide)
  simpa using h

theorem textToVectorsLoop_upper (t : GoString) (n : Nat) (hn : 1 ≤ n) (l : List Nat)
    (hup : ∀ i ∈ l, isUpperAZ (slice t (i * n) ((i + 1) * n)))
    (hlen : ∀ i ∈ l, (slice t (i * n) ((i + 1) * n)).length = n) :
    textToVectorsLoop t (n : Int) l
      = .ok (l.map (fun i => ⟨n, 1, (slice t (i * n) ((i + 1) * n)).map code⟩)) := by
  induction l with
  | nil => rfl
  | cons i l ih =>
    have h1 := hup i (List.mem_cons_self _ _)
    have h2 := hlen i (List.mem_cons_self _ _)
    simp only [textToVectorsLoop, Int.toNat_ofNat, lookupValues_upper _ _ h1,
      NewDense_col n hn ((slice t (i * n) ((i + 1) * n)).map code)
        (by rw [List.length_map]; exact h2),
      ih (fun j hj => hup j (List.mem_cons_of_mem _ hj))
        (fun j hj => hlen j (List.mem_cons_of_mem _ hj)), List.map_cons]

theorem textToVectorsLoop_not_upper (t : GoString) (n : Nat) (hn : 1 ≤ n) (l : List Nat)
    (hup : ¬ ∀ i ∈ l, isUpperAZ (slice t (i * n) ((i + 1) * n)))
    (hlen : ∀ i ∈ l, (slice t (i * n) ((i + 1) * n)).length = n) :
    textToVectorsLoop t (n : Int) l = .error .invalidCharacterInText := by
  induction l with
  | nil => exact absurd (fun i hi => by cases hi) hup
  | cons i l ih =>
    by_cases h1 : isUpperAZ (slice t (i * n) ((i + 1) * n))
    · have h2 := hlen i (List.mem_cons_self _ _)
      have h3 : ¬ ∀ j ∈ l, isUpperAZ (slice t (j * n) ((j + 1) * n)) := by
        intro h
        apply hup
        intro j hj
        rcases List.mem_cons.mp hj with rfl | hj
        · exact h1
        · exact h j hj
      simp only [textToVectorsLoop, Int.toNat_ofNat, lookupValues_upper _ _ h1,
        NewDense_col n hn ((slice t (i * n) ((i + 1) * n)).map code)
        (by rw [List.length_map]; exact h2),
        ih h3 (fun j hj => hlen j (List.mem_cons_of_mem _ hj))]
    · simp only [textToVectorsLoop, Int.toNat_ofNat, lookupValues_not_upper _ _ h1]

theorem slice_length (t : GoString) (n q i : Nat) (hq : q * n ≤ t.length) (hi : i < q) :
    (slice t (i * n) ((i + 1) * n)).length = n := by
  unfold slice
  rw [List.length_take, List.length_drop]
  have h1 : (i + 1) * n ≤ q * n := Nat.mul_le_mul_right n hi
  rw [Nat.succ_mul] at h1 ⊢
  omega

theorem textToVectors_eq (t : GoString) (n : Nat) (hn : 1 ≤ n) :
    textToVectors t (n : Int) = textToVectorsLoop t (n : Int) (List.range (t.length / n)) := by
  have h0 : ¬ ((n : Int) = 0) := by omega
  have hq : (len t).tdiv (n : Int) = ((t.length / n : Nat) : Int) := rfl
  have h1 : ¬ (((t.length / n : Nat) : Int) < 0) := not_lt.mpr (Int.ofNat_nonneg _)
  simp only [textToVectors, h0, if_false, hq, h1, Int.toNat_ofNat]

theorem all_slices_upper (t : GoString) (n : Nat) :
    (∀ i ∈ List.range (t.length / n), isUpperAZ (slice t (i * n) ((i + 1) * n)))
      ↔ isUpperAZ (t.take (t.length / n * n)) := by
  rw [← chunks_flatten, isUpperAZ_flatten, ← map_slice_eq_chunks]
  simp only [List.mem_map, List.mem_range]
  constructor
  · rintro h c ⟨i, hi, rfl⟩
    exact h i hi
  · intro h i hi
    exact h _ ⟨i, hi, rfl⟩

theorem textToVectors_upper (t : GoString) (n : Nat) (hn : 1 ≤ n)
    (hup : isUpperAZ (t.take (t.length / n * n))) :
    textToVectors t (n : Int)
      = .ok ((chunks n (t.length / n) t).map (fun c => ⟨n, 1, c.map code⟩)) := by
  have hq : t.length / n * n ≤ t.length := Nat.div_mul_le_self _ _
  rw [textToVectors_eq t n hn, textToVectorsLoop_upper t n hn _
    ((all_slices_upper t n).mpr hup)
    (fun i hi => slice_length t n _ i hq (List.mem_range.mp hi)),
    ← map_slice_eq_chunks, List.map_map]
  rfl

theorem textToVectors_not_upper (t : GoString) (n : Nat) (hn : 1 ≤ n)
    (hup : ¬ isUpperAZ (t.take (t.length / n * n))) :
    textToVectors t (n : Int) = .error .invalidCharacterInText := by
  have hq : t.length / n * n ≤ t.length := Nat.div_mul_le_self _ _
  rw [textToVectors_eq t n hn]
  exact textToVectorsLoop_not_upper t n hn _
    (fun h => hup ((all_slices_upper t n).mp h))
    (fun i hi => slice_length t n _ i hq (List.mem_range.mp hi))

theorem flatMap_range_one (l : List Nat) (f : Nat → Nat → Int) :
    l.flatMap (fun i => (List.range 1).map (fun j => f i j)) = l.map (fun i => f i 0) := by
  induction l with
  | nil => rfl
  | cons a l ih => rw [List.flatMap_cons, List.map_cons, ih]; rfl

theorem Mul_col (n : Nat) (M p : Dense) (hr : M.r = n) (hc : M.c = n)
    (hpr : p.r = n) (hpc : p.c = 1) :
    (⟨n, 1, List.replicate n 0⟩ : Dense).Mul M p = .ok (mulCol M n p) := by
  have h1 : ¬ (M.c ≠ p.r) := by omega
  have h2 : ¬ ((⟨n, 1, List.replicate n 0⟩ : Dense).r ≠ M.r
      ∨ (⟨n, 1, List.replicate n 0⟩ : Dense).c ≠ p.c) := by
    simp only; omega
  unfold Dense.Mul
  rw [if_neg h1, if_neg h2, hr, hc, hpc, flatMap_range_one]
  rfl

theorem mulVectors_ok (n : Nat) (hn : 1 ≤ n) (M : Dense) (hr : M.r = n) (hc : M.c = n)
    (vs : List Dense) (hv : ∀ v ∈ vs, v.r = n ∧ v.c = 1) :
    mulVectors (n : Int) M vs = .ok (vs.map (mulCol M n)) := by
  induction vs with
  | nil => rfl
  | cons p vs ih =>
    have hp := hv p (List.mem_cons_self _ _)
    simp only [mulVectors, NewDense_col_none n hn, Mul_col n M p hr hc hp.1 hp.2,
      ih (fun v h => hv v (List.mem_cons_of_mem _ h)), List.map_cons]

theorem vectorToTextLoop_ok (v : Dense) (l : List Nat)
    (h : ∀ i ∈ l, 0 ≤ v.At i 0 ∧ v.At i 0 ≤ 25) :
    vectorToTextLoop v l = .ok (l.map (fun i => letter (v.At i 0))) := by
  induction l with
  | nil => rfl
  | cons i l ih =>
    have hi := h i (List.mem_cons_self _ _)
    simp only [vectorToTextLoop, reverseAlphabet_lookup, hi, and_self, if_true,
      ih (fun j hj => h j (List.mem_cons_of_mem _ hj)), List.map_cons]

theorem vectorsToText_ok (vs : List Dense)
    (h : ∀ v ∈ vs, v.c = 1 ∧ ∀ i, i < v.r → 0 ≤ v.At i 0 ∧ v.At i 0 ≤ 25) :
    vectorsToText vs
      = .ok (vs.flatMap (fun v => (List.range v.r).map (fun i => letter (v.At i 0)))) := by
  induction vs with
  | nil => rfl
  | cons v vs ih =>
    have hv := h v (List.mem_cons_self _ _)
    have hc : ¬ (v.c ≠ 1) := not_not.mpr hv.1
    simp only [vectorsToText, hc, if_false,
      vectorToTextLoop_ok v (List.range v.r) (fun i hi => hv.2 i (List.mem_range.mp hi)),
      ih (fun w hw => h w (List.mem_cons_of_mem _ hw)), List.flatMap_cons]

theorem getD_map_range (n : Nat) (g : Nat → Int) (i : Nat) (hi : i < n) :
    ((List.range n).map g).getD i 0 = g i := by
  rw [List.getD_eq_getElem _ _ (by rw [List.length_map, List.length_range]; exact hi)]
  simp

theorem applyMod26_mulCol (M : Dense) (n : Nat) (p : Dense) :
    applyMod26 (mulCol M n p) = ⟨n, 1, (List.range n).map (fun i =>
      reduceMod26 (((List.range n).map (fun k => M.At i k * p.At k 0)).sum))⟩ := by
  rw [applyMod26_eq _ (by simp [mulCol])]
  simp [mulCol, List.map_map, Function.comp_def]

theorem text_of_block (M : Dense) (n : Nat) (c : GoString) :
    (List.range (applyMod26 (mulCol M n ⟨n, 1, c.map code⟩)).r).map
      (fun i => letter ((applyMod26 (mulCol M n ⟨n, 1, c.map code⟩)).At i 0))
      = cryptBlock M n c := by
  rw [applyMod26_mulCol]
  simp only [cryptBlock]
  apply List.map_congr_left
  intro i hi
  rw [List.mem_range] at hi
  simp only [Dense.At, Nat.mul_one, Nat.add_zero]
  rw [getD_map_range n _ i hi]

theorem crypt_stages (n : Nat) (hn : 1 ≤ n) (M : Dense) (hr : M.r = n) (hc : M.c = n)
    (t : GoString) (hup : isUpperAZ (t.take (t.length / n * n))) :
    ∃ vectors outVectors, textToVectors t (n : Int) = .ok vectors ∧
      mulVectors (n : Int) M vectors = .ok outVectors ∧
      vectorsToText (applyMod26ToMatrices outVectors) = .ok (cryptText M n t) := by
  have hmv := mulVectors_ok n hn M hr hc
    ((chunks n (t.length / n) t).map (fun c => ⟨n, 1, c.map code⟩))
    (by
      intro v hv
      rw [List.mem_map] at hv
      obtain ⟨c, _, rfl⟩ := hv
      exact ⟨rfl, rfl⟩)
  have hvt := vectorsToText_ok (applyMod26ToMatrices
    (((chunks n (t.length / n) t).map (fun c => (⟨n, 1, c.map code⟩ : Dense))).map (mulCol M n)))
    (by
      intro v hv
      simp only [applyMod26ToMatrices, List.map_map, List.mem_map, Function.comp_apply] at hv
      obtain ⟨c, _, rfl⟩ := hv
      rw [applyMod26_mulCol]
      refine ⟨rfl, ?_⟩
      intro i hi
      simp only [Dense.At, Nat.mul_one, Nat.add_zero]
      simp only at hi
      rw [getD_map_range n _ i hi]
      exact reduceMod26_range _)
  refine ⟨_, _, textToVectors_upper t n hn hup, hmv, ?_⟩
  rw [hvt]
  simp only [cryptText, applyMod26ToMatrices, List.map_map, List.flatMap_map,
    Function.comp_def, text_of_block]

theorem cryptSteps_upper (n : Nat) (hn : 1 ≤ n) (M : Dense) (hr : M.r = n) (hc : M.c = n)
    (w1 w2 : Wrap) (t : GoString) (hup : isUpperAZ (t.take (t.length / n * n))) :
    cryptSteps (n : Int) M w1 w2 t = .ok (cryptText M n t) := by
  obtain ⟨vectors, outVectors, h1, h2, h3⟩ := crypt_stages n hn M hr hc t hup
  simp only [cryptSteps, h1, Result.wrap_ok, Result.ok_bind, h2, h3]

theorem cryptSteps_not_upper (n : Nat) (hn : 1 ≤ n) (M : Dense)
    (w1 w2 : Wrap) (t : GoString) (hup : ¬ isUpperAZ (t.take (t.length / n * n))) :
    cryptSteps (n : Int) M w1 w2 t = .error (.wrapped w1 .invalidCharacterInText) := by
  simp only [cryptSteps, textToVectors_not_upper t n hn hup, Result.wrap_error,
    Result.error_bind]

/-! ## A block through one matrix and then its inverse -/

theorem cast_block (n : Nat) (A B : Dense) (hBA : castMat n B * castMat n A = 1)
    (v : Nat → Int) (j : Fin n) :
    ((reduceMod26 (∑ i : Fin n, B.At j.val i.val *
        reduceMod26 (∑ k : Fin n, A.At i.val k.val * v k.val)) : Int) : ZMod 26)
      = ((v j.val : Int) : ZMod 26) := by
  have key : (castMat n B).mulVec ((castMat n A).mulVec (fun k => ((v k.val : Int) : ZMod 26))) j
      = ((v j.val : Int) : ZMod 26) := by
    rw [Matrix.mulVec_mulVec, hBA, Matrix.one_mulVec]
  rw [cast_reduceMod26]
  push_cast
  simp only [cast_reduceMod26]
  push_cast
  rw [← key]
  rfl

theorem block_value (n : Nat) (A B : Dense) (hBA : castMat n B * castMat n A = 1)
    (v : Nat → Int) (hv : ∀ k, k < n → 0 ≤ v k ∧ v k ≤ 25) (j : Nat) (hj : j < n) :
    reduceMod26 (((List.range n).map (fun i => B.At j i *
        reduceMod26 (((List.range n).map (fun k => A.At i k * v k)).sum))).sum) = v j := by
  rw [sum_range_eq_sum_fin]
  simp only [sum_range_eq_sum_fin]
  have h := cast_block n A B hBA v ⟨j, hj⟩
  have h2 := emod_of_cast_eq _ _ h
  have h3 := reduceMod26_range (∑ i : Fin n, B.At j i.val *
        reduceMod26 (∑ k : Fin n, A.At i.val k.val * v k.val))
  have h4 := hv j hj
  simp only at h2
  omega

theorem cryptBlock_length (M : Dense) (n : Nat) (c : GoString) :
    (cryptBlock M n c).length = n := by
  simp [cryptBlock]

theorem cryptBlock_upper (M : Dense) (n : Nat) (c : GoString) :
    isUpperAZ (cryptBlock M n c) := by
  intro ch hch
  simp only [cryptBlock, List.mem_map] at hch
  obtain ⟨i, _, rfl⟩ := hch
  have h := reduceMod26_range (((List.range n).map
    (fun k => M.At i k * (c.map code).getD k 0)).sum)
  exact letter_upper _ h.1 h.2

theorem code_getD_range (c : GoString) (hup : isUpperAZ c) (k : Nat) (hk : k < c.length) :
    0 ≤ (c.map code).getD k 0 ∧ (c.map code).getD k 0 ≤ 25 := by
  rw [List.getD_eq_getElem _ _ (by rw [List.length_map]; exact hk), List.getElem_map]
  exact code_range _ (hup _ (List.getElem_mem _))

theorem cryptBlock_getElem (M : Dense) (n : Nat) (c : GoString) (j : Nat)
    (h : j < (cryptBlock M n c).length) :
    (cryptBlock M n c)[j] = letter (reduceMod26
      (((List.range n).map (fun k => M.At j k * (c.map code).getD k 0)).sum)) := by
  simp only [cryptBlock, List.getElem_map, List.getElem_range]

theorem cryptBlock_inverse (n : Nat) (A B : Dense) (hBA : castMat n B * castMat n A = 1)
    (c : GoString) (hup : isUpperAZ c) (hlen : c.length = n) :
    cryptBlock B n (cryptBlock A n c) = c := by
  apply List.ext_getElem
  · rw [cryptBlock_length, hlen]
  · intro j h1 h2
    rw [cryptBlock_length] at h1
    have hin : ∀ i ∈ List.range n,
        B.At j i * ((cryptBlock A n c).map code).getD i 0
          = B.At j i * reduceMod26 (((List.range n).map
              (fun k => A.At i k * (c.map code).getD k 0)).sum) := by
      intro i hi
      rw [List.mem_range] at hi
      congr 1
      simp only [cryptBlock, List.map_map]
      rw [getD_map_range n _ i hi]
      simp only [Function.comp_apply]
      have h := reduceMod26_range (((List.range n).map
        (fun k => A.At i k * (c.map code).getD k 0)).sum)
      exact code_letter _ h.1 h.2
    rw [cryptBlock_getElem, List.map_congr_left hin]
    rw [block_value n A B hBA (fun k => (c.map code).getD k 0)
      (fun k hk => code_getD_range c hup k (by omega)) j h1]
    rw [List.getD_eq_getElem _ _ (by rw [List.length_map]; exact h2), List.getElem_map]
    exact letter_code _ (hup _ (List.getElem_mem _))

theorem cryptText_inverse (n : Nat) (hn : 1 ≤ n) (A B : Dense)
    (hBA : castMat n B * castMat n A = 1)
    (t : GoString) (hup : isUpperAZ (t.take (t.length / n * n))) :
    cryptText B n (cryptText A n t) = t.take (t.length / n * n) := by
  have hq : t.length / n * n ≤ t.length := Nat.div_mul_le_self _ _
  have hlen : (cryptText A n t).length = t.length / n * n := by
    unfold cryptText
    rw [length_flatMap_const n _ _ (fun b _ => cryptBlock_length A n b), length_chunks]
  have hdiv : (cryptText A n t).length / n = (chunks n (t.length / n) t).length := by
    rw [hlen, length_chunks, Nat.mul_div_cancel _ (by omega)]
  have hch : chunks n ((cryptText A n t).length / n) (cryptText A n t)
      = (chunks n (t.length / n) t).map (cryptBlock A n) := by
    rw [hdiv]
    exact chunks_flatMap n _ _ (fun b _ => cryptBlock_length A n b)
  have hall : ∀ c ∈ chunks n (t.length / n) t, isUpperAZ c := by
    rw [← isUpperAZ_flatten, chunks_flatten]; exact hup
  conv_lhs => rw [cryptText, hch, List.flatMap_map]
  rw [← chunks_flatten n (t.length / n) t, ← List.flatMap_id]
  apply List.flatMap_congr
  intro c hc
  exact cryptBlock_inverse n A B hBA c (hall c hc) (chunks_length n _ t hq c hc)

/-! ## The cipher object -/

theorem NewHillCipher_ok (key : GoString) (dim : Int) (hc : HillCipher)
    (h : NewHillCipher key dim = .ok hc) :
    ∃ n : Nat, 1 ≤ n ∧ dim = (n : Int) ∧ hc.dimension = (n : Int) ∧ isUpperAZ key ∧
      key.length = n * n ∧ hc.keyMatrix = ⟨n, n, key.map code⟩ ∧
      calculateInverseKeyMatrix hc.keyMatrix = .ok hc.inverseKeyMatrix ∧
      hc.inverseKeyMatrix.r = n ∧ hc.inverseKeyMatrix.c = n ∧
      castMat n hc.inverseKeyMatrix * castMat n hc.keyMatrix = 1 ∧
      castMat n hc.keyMatrix * castMat n hc.inverseKeyMatrix = 1 := by
  by_cases hup : isUpperAZ key
  · by_cases hd : dim ≤ 0
    · have := (newCipher_panics_on_dimension key dim hd hup)
      rw [h] at this
      cases this
    · by_cases hl : len key = dim * dim
      · have hdn : dim = ((dim.toNat : Nat) : Int) := by omega
        have hn : 1 ≤ dim.toNat := by omega
        have hlen : key.length = dim.toNat * dim.toNat := by
          have : (key.length : Int) = ((dim.toNat : Nat) : Int) * ((dim.toNat : Nat) : Int) := by
            rw [← hdn]; exact hl
          exact_mod_cast this
        have hsm : stringToMatrix key dim = .ok ⟨dim.toNat, dim.toNat, key.map code⟩ := by
          rw [stringToMatrix_upper key dim hup]
          conv_lhs => rw [hdn]
          exact NewDense_some _ _ hn hn _ (by rw [List.length_map]; exact hlen)
        simp only [NewHillCipher, hsm, Result.wrap_ok, Result.ok_bind] at h
        rcases calculateInverseKeyMatrix_spec dim.toNat (key.map code) hn with
          ⟨_, inv, di, hres, hir, hic, _, hmul, hAt⟩ | ⟨_, e, hres, _⟩
        · simp only [hres, Result.wrap_ok, Result.ok_bind, Result.pure_eq] at h
          injection h with h
          subst h
          have hcm := castMat_inverse dim.toNat ⟨dim.toNat, dim.toNat, key.map code⟩ inv di
            hmul hAt
          exact ⟨dim.toNat, hn, hdn, hdn, hup, hlen, rfl, hres, hir, hic, hcm.2, hcm.1⟩
        · simp only [hres, Result.wrap_error, Result.error_bind] at h
          cases h
      · have := (newCipher_panics_on_shape key dim (by omega) hup hl)
        rw [h] at this
        cases this
  · have : NewHillCipher key dim
        = .error (.wrapped .couldNotCreateKeyMatrix .invalidCharacterInKey) := by
      simp only [NewHillCipher, stringToMatrix_not_upper key dim hup, Result.wrap_error,
        Result.error_bind]
    rw [h] at this
    cases this

theorem Decrypt_eq (hc : HillCipher) (t : GoString) :
    hc.Decrypt t = if t = [] then .ok [] else
      cryptSteps hc.dimension hc.inverseKeyMatrix .ciphertextToVectors
        .decryptedVectorsToText t := rfl

theorem Encrypt_eq (hc : HillCipher) (t : GoString) :
    hc.Encrypt t = if t = [] then .ok [] else
      (padMessage t hc.dimension >>= fun paddedText =>
        cryptSteps hc.dimension hc.keyMatrix .plaintextToVectors
          .encryptedVectorsToText paddedText) := rfl

theorem cryptText_nil (M : Dense) (n : Nat) : cryptText M n [] = [] := by
  simp [cryptText, chunks]

theorem cryptSteps_nil (n : Nat) (hn : 1 ≤ n) (M : Dense) (hr : M.r = n) (hc : M.c = n)
    (w1 w2 : Wrap) : cryptSteps (n : Int) M w1 w2 [] = .ok [] := by
  rw [cryptSteps_upper n hn M hr hc w1 w2 [] (by simp [isUpperAZ]), cryptText_nil]

theorem padMessage_eq (message : GoString) (n : Nat) (hn : 1 ≤ n) :
    padMessage message (n : Int) = .ok (padded message n) := by
  have hn0 : ¬ ((n : Int) = 0) := by omega
  have hmod : (len message).tmod (n : Int) = ((message.length % n : Nat) : Int) := rfl
  have hlt : message.length % n < n := Nat.mod_lt _ (by omega)
  unfold padded
  simp only [padMessage, hn0, if_false, hmod]
  generalize message.length % n = r at hlt ⊢
  by_cases h : r = 0
  · simp only [h, Nat.cast_zero, if_true, Nat.sub_zero, Nat.mod_self, List.replicate_zero,
      List.append_nil]
  · have h1 : ¬ ((r : Int) = 0) := by omega
    have h2 : ¬ ((n : Int) - (r : Int) < 0) := by omega
    have h5 : (n - r) % n = n - r := Nat.mod_eq_of_lt (by omega)
    have h3 : ((n : Int) - (r : Int)).toNat = n - r := by omega
    simp only [h1, h2, h3, h5, if_false]

theorem padded_length (message : GoString) (n : Nat) (hn : 1 ≤ n) :
    (padded message n).length / n * n = (padded message n).length := by
  apply Nat.div_mul_cancel
  unfold padded
  rw [List.length_append, List.length_replicate]
  apply Nat.dvd_of_mod_eq_zero
  have hlt : message.length % n < n := Nat.mod_lt _ (by omega)
  by_cases h : message.length % n = 0
  · rw [h, Nat.sub_zero, Nat.mod_self, Nat.add_zero, h]
  · rw [Nat.mod_eq_of_lt (show n - message.length % n < n by omega)]
    have h4 := Nat.div_add_mod message.length n
    have : message.length + (n - message.length % n) = n * (message.length / n + 1) := by
      rw [Nat.mul_add, Nat.mul_one]; omega
    rw [this, Nat.mul_mod_right]

theorem padded_upper (message : GoString) (n : Nat) :
    isUpperAZ (padded message n) ↔ isUpperAZ message := by
  unfold padded
  rw [isUpperAZ_append]
  constructor
  · exact fun h => h.1
  · intro h
    refine ⟨h, ?_⟩
    intro ch hch
    rw [List.mem_replicate] at hch
    rw [hch.2]
    decide

theorem Encrypt_upper (hc : HillCipher) (n : Nat) (hn : 1 ≤ n) (hd : hc.dimension = (n : Int))
    (hr : hc.keyMatrix.r = n) (hcc : hc.keyMatrix.c = n) (t : GoString) (hup : isUpperAZ t) :
    hc.Encrypt t = .ok (cryptText hc.keyMatrix n (padded t n)) := by
  rw [Encrypt_eq, hd]
  by_cases h : t = []
  · subst h
    simp [padded, cryptText_nil]
  · rw [if_neg h, padMessage_eq t n hn, Result.ok_bind]
    apply cryptSteps_upper n hn _ hr hcc
    rw [padded_length _ n hn, List.take_length]
    exact (padded_upper t n).mpr hup

theorem Encrypt_not_upper (hc : HillCipher) (n : Nat) (hn : 1 ≤ n)
    (hd : hc.dimension = (n : Int)) (t : GoString) (hup : ¬ isUpperAZ t) :
    hc.Encrypt t = .error (.wrapped .plaintextToVectors .invalidCharacterInText) := by
  have h : t ≠ [] := by
    rintro rfl
    exact hup (by simp [isUpperAZ])
  rw [Encrypt_eq, hd, if_neg h, padMessage_eq t n hn, Result.ok_bind]
  apply cryptSteps_not_upper n hn
  rw [padded_length _ n hn, List.take_length]
  exact fun h2 => hup ((padded_upper t n).mp h2)

theorem Decrypt_upper (hc : HillCipher) (n : Nat) (hn : 1 ≤ n) (hd : hc.dimension = (n : Int))
    (hr : hc.inverseKeyMatrix.r = n) (hcc : hc.inverseKeyMatrix.c = n) (t : GoString)
    (hup : isUpperAZ (t.take (t.length / n * n))) :
    hc.Decrypt t = .ok (cryptText hc.inverseKeyMatrix n t) := by
  rw [Decrypt_eq, hd]
  by_cases h : t = []
  · subst h
    simp [cryptText_nil]
  · rw [if_neg h]
    exact cryptSteps_upper n hn _ hr hcc _ _ t hup

theorem cryptText_upper (M : Dense) (n : Nat) (t : GoString) : isUpperAZ (cryptText M n t) := by
  intro ch hch
  simp only [cryptText, List.mem_flatMap] at hch
  obtain ⟨b, _, hb⟩ := hch
  exact cryptBlock_upper M n b ch hb

theorem isUpperAZ_take (t : GoString) (k : Nat) (h : isUpperAZ t) : isUpperAZ (t.take k) :=
  fun ch hch => h ch (List.mem_of_mem_take hch)

theorem Mul_square (n : Nat) (recv K B : Dense) (hr : K.r = n) (hc : K.c = n)
    (hbr : B.r = n) (hbc : B.c = n) (hrr : recv.r = n) (hrc : recv.c = n) :
    ∃ P, recv.Mul K B = .ok P ∧ P.r = n ∧ P.c = n ∧
      ∀ i j : Fin n, P.At i.val j.val = ∑ k : Fin n, K.At i.val k.val * B.At k.val j.val := by
  have h1 : ¬ (K.c ≠ B.r) := by omega
  have h2 : ¬ (recv.r ≠ K.r ∨ recv.c ≠ B.c) := by omega
  refine ⟨⟨K.r, B.c, (List.range K.r).flatMap (fun i =>
      (List.range B.c).map (fun j =>
        ((List.range K.c).map (fun k => K.At i k * B.At k j)).sum))⟩,
    by simp only [Dense.Mul, h1, h2, if_false], hr, hbc, ?_⟩
  intro i j
  show (List.getD _ (i.val * B.c + j.val) 0) = _
  rw [hr, hbc, hc, getD_table n n _ i.val j.val i.isLt j.isLt, sum_range_eq_sum_fin]

theorem calculateModInverse_26_table : ∀ a : Fin 26, 1 ≤ a.val →
    (((calculateModInverse (a.val : Int) 26).isError = true ↔ Int.gcd (a.val : Int) 26 ≠ 1) ∧
     (Int.gcd (a.val : Int) 26 = 1 → ∃ i : Fin 26,
        calculateModInverse (a.val : Int) 26 = .ok (i.val : Int) ∧
        1 ≤ i.val ∧ ((a.val : Int) * (i.val : Int)).tmod 26 = 1 ∧
        ∀ k : Fin 26, 1 ≤ k.val → ((a.val : Int) * (k.val : Int)).tmod 26 = 1 →
          i.val ≤ k.val)) := by
  decide

/-! ## Further facts about texts, blocks and the adjugate -/

theorem cryptText_length (M : Dense) (n : Nat) (t : GoString) :
    (cryptText M n t).length = t.length / n * n := by
  unfold cryptText
  rw [length_flatMap_const n _ _ (fun b _ => cryptBlock_length M n b), length_chunks]

theorem chunks_append_blocks (n k q : Nat) (p t : GoString) (hp : p.length = k * n) :
    chunks n (k + q) (p ++ t) = chunks n k p ++ chunks n q t := by
  induction k generalizing p with
  | zero =>
    have : p = [] := List.length_eq_zero.mp (by rw [hp, Nat.zero_mul])
    subst this
    rw [Nat.zero_add]
    rfl
  | succ k ih =>
    rw [Nat.succ_mul] at hp
    have hle : n ≤ p.length := by omega
    have h1 : (p ++ t).take n = p.take n := List.take_append_of_le_length hle
    have h2 : (p ++ t).drop n = p.drop n ++ t := List.drop_append_of_le_length hle
    have h3 : k + 1 + q = (k + q) + 1 := by omega
    rw [h3, chunks, chunks, h1, h2, ih (p.drop n) (by rw [List.length_drop]; omega)]
    rfl

theorem cryptText_append (M : Dense) (n : Nat) (hn : 1 ≤ n) (p t : GoString)
    (hp : n ∣ p.length) :
    cryptText M n (p ++ t) = cryptText M n p ++ cryptText M n t := by
  obtain ⟨k, hk⟩ := hp
  have hk2 : p.length = k * n := by rw [hk, Nat.mul_comm]
  have h1 : (p ++ t).length / n = k + t.length / n := by
    rw [List.length_append, hk, Nat.mul_add_div (by omega : 0 < n)]
  have h2 : p.length / n = k := by
    rw [hk, Nat.mul_div_cancel_left _ (by omega : 0 < n)]
  unfold cryptText
  rw [h1, h2, chunks_append_blocks n k _ p t hk2, List.flatMap_append]

theorem padded_of_dvd (t : GoString) (n : Nat) (h : n ∣ t.length) : padded t n = t := by
  unfold padded
  rw [Nat.mod_eq_zero_of_dvd h, Nat.sub_zero, Nat.mod_self, List.replicate_zero,
    List.append_nil]

theorem padded_append (p q : GoString) (n : Nat) (h : n ∣ p.length) :
    padded (p ++ q) n = p ++ padded q n := by
  unfold padded
  obtain ⟨k, hk⟩ := h
  rw [List.length_append, hk, Nat.mul_add_mod, List.append_assoc]

theorem padded_dvd (t : GoString) (n : Nat) (hn : 1 ≤ n) : n ∣ (padded t n).length := by
  have h := padded_length t n hn
  exact ⟨(padded t n).length / n, by rw [Nat.mul_comm]; exact h.symm⟩

theorem take_full (t : GoString) (n : Nat) (h : n ∣ t.length) :
    t.take (t.length / n * n) = t := by
  rw [Nat.div_mul_cancel h, List.take_length]

theorem cipher_dimension (key : GoString) (n : Nat) (hc : HillCipher)
    (hnew : NewHillCipher key (n : Int) = .ok hc) :
    1 ≤ n ∧ hc.dimension = (n : Int) ∧ isUpperAZ key ∧ key.length = n * n ∧
      hc.keyMatrix = ⟨n, n, key.map code⟩ ∧
      hc.inverseKeyMatrix.r = n ∧ hc.inverseKeyMatrix.c = n ∧
      castMat n hc.inverseKeyMatrix * castMat n hc.keyMatrix = 1 ∧
      castMat n hc.keyMatrix * castMat n hc.inverseKeyMatrix = 1 := by
  obtain ⟨m, hm, hnm, hd, hup, hlen, hK, _, hir, hic, h1, h2⟩ :=
    NewHillCipher_ok key (n : Int) hc hnew
  have : n = m := by exact_mod_cast hnm
  subst this
  exact ⟨hm, hd, hup, hlen, hK, hir, hic, h1, h2⟩

theorem chunks_take (n q : Nat) (t : GoString) (hq : q * n ≤ t.length) :
    chunks n q (t.take (q * n)) = chunks n q t := by
  induction q generalizing t with
  | zero => rfl
  | succ q ih =>
    rw [Nat.succ_mul] at hq
    have h1 : (t.take ((q + 1) * n)).take n = t.take n := by
      rw [List.take_take, Nat.succ_mul]
      congr 1
      omega
    have h2 : (t.take ((q + 1) * n)).drop n = (t.drop n).take (q * n) := by
      rw [List.drop_take, Nat.succ_mul]
      congr 1
      omega
    rw [chunks, chunks, h1, h2, ih (t.drop n) (by rw [List.length_drop]; omega)]

theorem cryptText_take (M : Dense) (n : Nat) (hn : 1 ≤ n) (t : GoString) :
    cryptText M n (t.take (t.length / n * n)) = cryptText M n t := by
  have hq : t.length / n * n ≤ t.length := Nat.div_mul_le_self _ _
  have hl : (t.take (t.length / n * n)).length = t.length / n * n := by
    rw [List.length_take]; omega
  unfold cryptText
  rw [hl, Nat.mul_div_cancel _ (by omega : 0 < n), chunks_take n _ t hq]

theorem inverse_entries (n : Nat) (d : List Int) (hn : 1 ≤ n) (inv : Dense)
    (h : calculateInverseKeyMatrix ⟨n, n, d⟩ = .ok inv) :
    inv.r = n ∧ inv.c = n ∧ inv.data.length = n * n ∧
      ∀ x ∈ inv.data, 0 ≤ x ∧ x ≤ 25 := by
  rcases calculateInverseKeyMatrix_spec n d hn with ⟨_, inv2, di, hres, hir, hic, hlen, _, hAt⟩ |
    ⟨_, e, hres, _⟩
  · rw [hres] at h
    injection h with h
    subst h
    refine ⟨hir, hic, hlen, ?_⟩
    intro x hx
    obtain ⟨p, hp, rfl⟩ := List.getElem_of_mem hx
    rw [hlen] at hp
    have hn0 : 0 < n := by omega
    have hpd : p / n < n := by rw [Nat.div_lt_iff_lt_mul hn0]; exact hp
    have hpm : p % n < n := Nat.mod_lt _ hn0
    have hA := hAt ⟨p / n, hpd⟩ ⟨p % n, hpm⟩
    simp only [Dense.At, hic, Nat.div_add_mod' p n] at hA
    rw [List.getD_eq_getElem _ _ (by rw [hlen]; exact hp)] at hA
    rw [hA]
    exact reduceMod26_range _
  · rw [hres] at h
    cases h

theorem length_byteTable (r c : Nat) (f : Nat → Nat → UInt8) :
    ((List.range r).flatMap (fun a => (List.range c).map (fun b => f a b))).length = r * c := by
  induction r with
  | zero => simp
  | succ r ih =>
    rw [List.range_succ, List.flatMap_append, List.length_append, ih]
    simp [Nat.succ_mul]

theorem getD_byteTable (r c : Nat) (f : Nat → Nat → UInt8) (a b : Nat) (ha : a < r)
    (hb : b < c) :
    ((List.range r).flatMap (fun a => (List.range c).map (fun b => f a b))).getD (a * c + b) 0
      = f a b := by
  induction r with
  | zero => omega
  | succ r ih =>
    rw [List.range_succ, List.flatMap_append, List.getD_eq_getElem?_getD]
    by_cases h : a < r
    · have hlt : a * c + b < r * c := by
        have : (a + 1) * c ≤ r * c := Nat.mul_le_mul_right c h
        rw [Nat.succ_mul] at this
        omega
      rw [List.getElem?_append_left (by rw [length_byteTable]; exact hlt),
        ← List.getD_eq_getElem?_getD]
      exact ih h
    · have hEq : a = r := by omega
      subst hEq
      rw [List.getElem?_append_right (by rw [length_byteTable]; omega), length_byteTable]
      simp [hb]

theorem getD_map_code (l : GoString) (p : Nat) (h : p < l.length) :
    (l.map code).getD p 0 = code (l.getD p 0) := by
  rw [List.getD_eq_getElem _ _ (by rw [List.length_map]; exact h), List.getD_eq_getElem _ _ h,
    List.getElem_map]

theorem getD_slice (t : GoString) (lo hi k : Nat) (hk : k < hi - lo) :
    (slice t lo hi).getD k 0 = t.getD (lo + k) 0 := by
  unfold slice
  rw [List.getD_eq_getElem?_getD, List.getD_eq_getElem?_getD, List.getElem?_take_of_lt hk,
    List.getElem?_drop]

theorem cryptText_getD (M : Dense) (n : Nat) (t : GoString) (b i : Nat) (hi : i < n)
    (hb : b * n + i < t.length / n * n) :
    (cryptText M n t).getD (b * n + i) 0 = letter (reduceMod26
      (((List.range n).map (fun k => M.At i k * code (t.getD (b * n + k) 0))).sum)) := by
  have hq : t.length / n * n ≤ t.length := Nat.div_mul_le_self _ _
  have hbq : b < t.length / n := by
    by_contra hcon
    have : t.length / n * n ≤ b * n := Nat.mul_le_mul_right n (by omega)
    omega
  have hbn : (b + 1) * n ≤ t.length := by
    have : (b + 1) * n ≤ t.length / n * n := Nat.mul_le_mul_right n hbq
    omega
  unfold cryptText
  rw [← map_slice_eq_chunks, List.flatMap_map]
  simp only [cryptBlock]
  rw [getD_byteTable (t.length / n) n _ b i hbq hi]
  congr 2
  apply congrArg
  apply List.map_congr_left
  intro k hk
  rw [List.mem_range] at hk
  have hsl : (slice t (b * n) ((b + 1) * n)).length = n :=
    slice_length t n (t.length / n) b hq hbq
  rw [getD_map_code _ k (by rw [hsl]; exact hk),
    getD_slice t _ _ k (by rw [Nat.succ_mul]; omega)]

theorem minorSpec_eq_det (k : Nat) (M : Dense) (i j : Fin (k + 1)) :
    minorSpec (k + 1) M i.val j.val
      = ((toMat (k + 1) M).submatrix i.succAbove j.succAbove).det := by
  unfold minorSpec
  rw [Nat.add_sub_cancel, laplace_eq_det]
  congr 1
  ext x y
  simp only [toMat, Matrix.of_apply, Matrix.submatrix_apply, succAbove_val]

theorem adjugateSpec_At (n : Nat) (M : Dense) (a b : Nat) (ha : a < n) (hb : b < n) :
    (adjugateSpec n M).At a b = (-1) ^ (b + a) * minorSpec n M b a := by
  show List.getD _ (a * n + b) 0 = _
  exact getD_table n n (fun j i => (-1) ^ (i + j) * minorSpec n M i j) a b ha hb

theorem adjugateSpec_eq_adjugate (n : Nat) (M : Dense) (a b : Fin n) :
    (adjugateSpec n M).At a.val b.val = (toMat n M).adjugate a b := by
  rw [adjugateSpec_At n M a.val b.val a.isLt b.isLt]
  obtain ⟨k, rfl⟩ : ∃ k, n = k + 1 := ⟨n - 1, by have := a.isLt; omega⟩
  rw [Matrix.adjugate_fin_succ_eq_det_submatrix, minorSpec_eq_det]

theorem dense_ext_At (n : Nat) (hn : 1 ≤ n) (A B : Dense) (hAr : A.r = n) (hAc : A.c = n)
    (hBr : B.r = n) (hBc : B.c = n) (hAl : A.data.length = n * n)
    (hBl : B.data.length = n * n)
    (h : ∀ a b, a < n → b < n → A.At a b = B.At a b) : A = B := by
  obtain ⟨ar, ac, ad⟩ := A
  obtain ⟨br, bc, bd⟩ := B
  simp only at hAr hAc hBr hBc hAl hBl
  subst ar
  subst ac
  subst br
  subst bc
  congr 1
  apply List.ext_getElem
  · rw [hAl, hBl]
  · intro p h1 h2
    rw [hAl] at h1
    have hn0 : 0 < n := by omega
    have hpd : p / n < n := by rw [Nat.div_lt_iff_lt_mul hn0]; exact h1
    have hpm : p % n < n := Nat.mod_lt _ hn0
    have := h (p / n) (p % n) hpd hpm
    simp only [Dense.At, Nat.div_add_mod' p n] at this
    rw [List.getD_eq_getElem _ _ (by rw [hAl]; exact h1),
      List.getD_eq_getElem _ _ (by rw [hBl]; exact h1)] at this
    exact this

/-! ## Exact arithmetic

What the cipher does when every determinant it computes is the exact one.  The program's
`float64` determinants meet this on small keys only, so these theorems are about the intended
behaviour, not about the program on every key. -/

/-- In exact arithmetic: for every cipher that `NewHillCipher(key, n)` returns and every plaintext of letters
`A`..`Z` (the empty one included), `Encrypt` succeeds, `Decrypt` of the ciphertext succeeds,
and its result is `padMessage(plaintext, n)`: the plaintext followed by the `'X'` padding,
which is not stripped. -/
theorem exact_round_trip (key plaintext : GoString) (n : Int) (hc : HillCipher)
    (hnew : NewHillCipher key n = .ok hc) (hp : isUpperAZ plaintext) :
    ∃ ct pt, hc.Encrypt plaintext = .ok ct ∧ hc.Decrypt ct = .ok pt ∧
      padMessage plaintext n = .ok pt ∧ plaintext <+: pt := by
  obtain ⟨m, hm, hnm, hd, _, _, hK, _, hir, hic, hBA, _⟩ := NewHillCipher_ok key n hc hnew
  have hKr : hc.keyMatrix.r = m := by rw [hK]
  have hKc : hc.keyMatrix.c = m := by rw [hK]
  have hpu : isUpperAZ (padded plaintext m) := (padded_upper plaintext m).mpr hp
  refine ⟨cryptText hc.keyMatrix m (padded plaintext m), padded plaintext m,
    Encrypt_upper hc m hm hd hKr hKc plaintext hp, ?_, ?_, List.prefix_append _ _⟩
  · rw [Decrypt_upper hc m hm hd hir hic _ (isUpperAZ_take _ _ (cryptText_upper _ _ _)),
      cryptText_inverse m hm _ _ hBA _ (isUpperAZ_take _ _ hpu), padded_length _ m hm,
      List.take_length]
  · rw [hnm]
    exact padMessage_eq plaintext m hm

/-- Example of the round trip: key "GYBNQKURP" with dimension 3 and plaintext "ACTX". -/
theorem exact_round_trip_example :
    ∃ ct pt, (⟨3, ⟨3, 3, [6, 24, 1, 13, 16, 10, 20, 17, 15]⟩,
        ⟨3, 3, [8, 5, 10, 21, 8, 21, 21, 12, 8]⟩⟩ : HillCipher).Encrypt [65, 67, 84, 88] = .ok ct ∧
      (⟨3, ⟨3, 3, [6, 24, 1, 13, 16, 10, 20, 17, 15]⟩,
        ⟨3, 3, [8, 5, 10, 21, 8, 21, 21, 12, 8]⟩⟩ : HillCipher).Decrypt ct = .ok pt ∧
      padMessage [65, 67, 84, 88] 3 = .ok pt ∧ [65, 67, 84, 88] <+: pt :=
  exact_round_trip [71, 89, 66, 78, 81, 75, 85, 82, 80] [65, 67, 84, 88] 3 _ (by decide) (by decide)

/-- In exact arithmetic: for every `n ≥ 1` and every `n`-by-`n` key matrix `K` for which
`calculateInverseKeyMatrix(K)` returns `Kinv`, the matrix `Kinv` is `n`-by-`n` and every
entry of the product `K * Kinv` reduced mod 26 equals the corresponding entry of the
identity matrix (1 on the diagonal, 0 elsewhere). -/
theorem exact_inverse (n : Nat) (K Kinv recv : Dense) (hn : 1 ≤ n) (hr : K.r = n)
    (hc : K.c = n) (hinv : calculateInverseKeyMatrix K = .ok Kinv)
    (hrr : recv.r = n) (hrc : recv.c = n) :
    Kinv.r = n ∧ Kinv.c = n ∧
    ∃ P, recv.Mul K Kinv = .ok P ∧ P.r = n ∧ P.c = n ∧
      ∀ i j, i < n → j < n → reduceMod26 (P.At i j) = if i = j then 1 else 0 := by
  obtain ⟨kr, kc, d⟩ := K
  simp only at hr hc
  subst kr
  subst kc
  rcases calculateInverseKeyMatrix_spec n d hn with ⟨_, inv, di, hres, hir, hic, _, hmul, hAt⟩ |
    ⟨_, e, hres, _⟩
  · rw [hres] at hinv
    injection hinv with hinv
    subst hinv
    refine ⟨hir, hic, ?_⟩
    obtain ⟨P, hP, hPr, hPc, hPat⟩ := Mul_square n recv ⟨n, n, d⟩ inv rfl rfl hir hic hrr hrc
    refine ⟨P, hP, hPr, hPc, ?_⟩
    intro i j hi hj
    have hcast := (castMat_inverse n ⟨n, n, d⟩ inv di hmul hAt).1
    have hij := congrFun (congrFun hcast ⟨i, hi⟩) ⟨j, hj⟩
    have hPc : ((P.At i j : Int) : ZMod 26) = (((if i = j then 1 else 0 : Int)) : ZMod 26) := by
      have := hPat ⟨i, hi⟩ ⟨j, hj⟩
      simp only at this
      rw [this]
      rw [Matrix.mul_apply] at hij
      simp only [castMat, RingHom.mapMatrix_apply, Matrix.map_apply, toMat, Matrix.of_apply,
        Int.coe_castRingHom] at hij
      push_cast
      rw [hij, Matrix.one_apply]
      by_cases h : i = j
      · simp [h]
      · have : ¬ ((⟨i, hi⟩ : Fin n) = ⟨j, hj⟩) := fun hh => h (Fin.mk.inj_iff.mp hh)
        simp [h, this]
    rw [reduceMod26_eq_emod, emod_of_cast_eq _ _ hPc]
    split <;> rfl
  · rw [hres] at hinv
    cases hinv

/-- Example of the inverse: the key matrix of "HILL" and its inverse. -/
theorem exact_inverse_example :
    ∃ P, (⟨2, 2, [0, 0, 0, 0]⟩ : Dense).Mul ⟨2, 2, [7, 8, 11, 11]⟩ ⟨2, 2, [25, 22, 1, 23]⟩
        = .ok P ∧ P.r = 2 ∧ P.c = 2 ∧
      ∀ i j, i < 2 → j < 2 → reduceMod26 (P.At i j) = if i = j then 1 else 0 :=
  (exact_inverse 2 ⟨2, 2, [7, 8, 11, 11]⟩ ⟨2, 2, [25, 22, 1, 23]⟩ ⟨2, 2, [0, 0, 0, 0]⟩
    (by decide) rfl rfl (by decide) rfl rfl).2.2

/-- In exact arithmetic: for every square key matrix `K`, `calculateInverseKeyMatrix(K)` returns a matrix if
and only if `gcd(d, 26) = 1`, where `d` is the determinant of `K` reduced to its
non-negative residue mod 26; otherwise it returns an error, in particular for every nonzero
`d` that is even or equal to 13. -/
theorem exact_invertibility (n : Nat) (K : Dense) (hn : 1 ≤ n) (hr : K.r = n)
    (hc : K.c = n) :
    ∃ det, Det K = .ok det ∧ det = (toMat n K).det ∧
      ((calculateInverseKeyMatrix K).isOk = true ↔ Int.gcd (reduceMod26 det) 26 = 1) ∧
      ((calculateInverseKeyMatrix K).isError = true ↔ Int.gcd (reduceMod26 det) 26 ≠ 1) ∧
      (reduceMod26 det ≠ 0 → (2 ∣ reduceMod26 det ∨ reduceMod26 det = 13) →
        (calculateInverseKeyMatrix K).isError = true) := by
  refine ⟨_, Det_square n K hr hc, rfl, ?_⟩
  obtain ⟨kr, kc, d⟩ := K
  simp only at hr hc
  subst kr
  subst kc
  have hbad : ∀ x : Int, (2 ∣ x ∨ x = 13) → Int.gcd x 26 ≠ 1 := by
    intro x hx hg
    rcases hx with h2 | h13
    · have : (2 : Int) ∣ ((Int.gcd x 26 : Nat) : Int) := Int.dvd_gcd h2 (by decide)
      rw [hg] at this
      omega
    · subst h13
      revert hg
      decide
  rcases calculateInverseKeyMatrix_spec n d hn with ⟨hg, inv, di, hres, _⟩ | ⟨hg, e, hres, _⟩
  · rw [hres]
    refine ⟨⟨fun _ => hg, fun _ => rfl⟩, ⟨fun h => Bool.noConfusion h, fun h => absurd hg h⟩, ?_⟩
    intro _ hx
    exact absurd hg (hbad _ hx)
  · rw [hres]
    exact ⟨⟨fun h => Bool.noConfusion h, fun h => absurd h hg⟩, ⟨fun _ => hg, fun _ => rfl⟩, fun _ _ => rfl⟩

/-- Example of a key without inverse: the key matrix of "GYBN", whose determinant reduces to 2. -/
theorem exact_invertibility_example :
    ∃ det, Det ⟨2, 2, [6, 24, 1, 13]⟩ = .ok det ∧
      det = (toMat 2 ⟨2, 2, [6, 24, 1, 13]⟩).det ∧
      ((calculateInverseKeyMatrix ⟨2, 2, [6, 24, 1, 13]⟩).isOk = true
        ↔ Int.gcd (reduceMod26 det) 26 = 1) ∧
      ((calculateInverseKeyMatrix ⟨2, 2, [6, 24, 1, 13]⟩).isError = true
        ↔ Int.gcd (reduceMod26 det) 26 ≠ 1) ∧
      (reduceMod26 det ≠ 0 → (2 ∣ reduceMod26 det ∨ reduceMod26 det = 13) →
        (calculateInverseKeyMatrix ⟨2, 2, [6, 24, 1, 13]⟩).isError = true) :=
  exact_invertibility 2 ⟨2, 2, [6, 24, 1, 13]⟩ (by decide) rfl rfl

/-- In exact arithmetic: for every square matrix `M` of size `n ≥ 2`, `calculateAdjugate(M)` is the classical
adjugate: its entry `(j,i)` is `(-1)^(i+j)` times the determinant of `M` with row `i` and
column `j` removed, it is Mathlib's `Matrix.adjugate`, and `M * adjugate(M) = det(M) * I`;
for `n = 1` it returns the 1-by-1 matrix `[1]`; for a non-square input it returns an
error. -/
theorem exact_adjugate (n : Nat) (M : Dense) (hr : M.r = n) (hc : M.c = n) :
    (2 ≤ n → ∃ det, Det M = .ok det ∧
      calculateAdjugate M = .ok (adjugateSpec n M) ∧
      (∀ i j, i < n → j < n →
        (adjugateSpec n M).At j i = (-1) ^ (i + j) * minorSpec n M i j) ∧
      (∀ a b : Fin n, (adjugateSpec n M).At a.val b.val = (toMat n M).adjugate a b) ∧
      (∀ i j, i < n → j < n →
        ((List.range n).map (fun k => M.At i k * (adjugateSpec n M).At k j)).sum
          = if i = j then det else 0)) ∧
    (n = 1 → calculateAdjugate M = .ok ⟨1, 1, [1]⟩) ∧
    (∀ N : Dense, N.r ≠ N.c → calculateAdjugate N = .error .mustBeSquare) := by
  obtain ⟨mr, mc, d⟩ := M
  simp only at hr hc
  subst mr
  subst mc
  refine ⟨?_, ?_, ?_⟩
  · intro hn
    refine ⟨_, Det_square n _ rfl rfl, ?_, fun i j hi hj => adjugateSpec_At n _ j i hj hi,
      adjugateSpec_eq_adjugate n _, ?_⟩
    · obtain ⟨adj, hadj, har, hac, halen, hAt⟩ := calculateAdjugate_spec n d (by omega)
      rw [hadj]
      congr 1
      apply dense_ext_At n (by omega) adj _ har hac rfl rfl halen
        (by show List.length _ = _; exact length_table n n _)
      intro a b ha hb
      rw [hAt ⟨a, ha⟩ ⟨b, hb⟩, ← adjugateSpec_eq_adjugate n _ ⟨a, ha⟩ ⟨b, hb⟩]
    · intro i j hi hj
      rw [sum_range_eq_sum_fin]
      have h := congrFun (congrFun (Matrix.mul_adjugate (toMat n ⟨n, n, d⟩)) ⟨i, hi⟩) ⟨j, hj⟩
      rw [Matrix.mul_apply] at h
      simp only [Matrix.smul_apply, Matrix.one_apply, smul_eq_mul] at h
      have hsum : (∑ k : Fin n, (⟨n, n, d⟩ : Dense).At i k.val
            * (adjugateSpec n ⟨n, n, d⟩).At k.val j)
          = ∑ k : Fin n, toMat n ⟨n, n, d⟩ ⟨i, hi⟩ k
            * (toMat n ⟨n, n, d⟩).adjugate k ⟨j, hj⟩ := by
        apply Finset.sum_congr rfl
        intro k _
        rw [← adjugateSpec_eq_adjugate n _ k ⟨j, hj⟩]
        rfl
      rw [hsum, h]
      by_cases hij : i = j
      · subst hij
        simp
      · have : ¬ ((⟨i, hi⟩ : Fin n) = ⟨j, hj⟩) := fun hh => hij (Fin.mk.inj_iff.mp hh)
        simp [hij, this]
  · intro h1
    subst h1
    obtain ⟨adj, hadj, har, hac, halen, hAt⟩ := calculateAdjugate_spec 1 d (by omega)
    rw [hadj]
    congr 1
    apply dense_ext_At 1 (by omega) adj ⟨1, 1, [1]⟩ har hac rfl rfl halen rfl
    intro a b ha hb
    have ha0 : a = 0 := by omega
    have hb0 : b = 0 := by omega
    subst ha0
    subst hb0
    rw [hAt ⟨0, by omega⟩ ⟨0, by omega⟩, Matrix.adjugate_fin_one]
    rfl
  · intro N hN
    simp only [calculateAdjugate, hN, ne_eq, not_false_eq_true, if_true]

/-- Example of the adjugate: the key matrix of "GYBNQKURP", of size 3. -/
theorem exact_adjugate_example :
    calculateAdjugate ⟨3, 3, [6, 24, 1, 13, 16, 10, 20, 17, 15]⟩
      = .ok (adjugateSpec 3 ⟨3, 3, [6, 24, 1, 13, 16, 10, 20, 17, 15]⟩) := by
  obtain ⟨_, _, h, _⟩ :=
    (exact_adjugate 3 ⟨3, 3, [6, 24, 1, 13, 16, 10, 20, 17, 15]⟩ rfl rfl).1
      (by decide)
  exact h

/-- In exact arithmetic: for every cipher that `NewHillCipher(key, n)` returns and every text `c` of letters
`A`..`Z` whose length is a multiple of `n`, `Decrypt(c)` is again such a text of the same
length, `Encrypt(Decrypt(c)) = c` and `Decrypt(Encrypt(c)) = c`: the inverse key matrix is a
two-sided inverse mod 26 and `Decrypt` is a bijection on such texts. -/
theorem exact_reverse_round_trip (key c : GoString) (n : Nat) (hc : HillCipher)
    (hnew : NewHillCipher key (n : Int) = .ok hc) (hup : isUpperAZ c) (hlen : n ∣ c.length) :
    (∃ pt, hc.Decrypt c = .ok pt ∧ isUpperAZ pt ∧ pt.length = c.length ∧
      hc.Encrypt pt = .ok c) ∧
    (∃ ct, hc.Encrypt c = .ok ct ∧ isUpperAZ ct ∧ ct.length = c.length ∧
      hc.Decrypt ct = .ok c) ∧
    castMat n hc.keyMatrix * castMat n hc.inverseKeyMatrix = 1 ∧
    castMat n hc.inverseKeyMatrix * castMat n hc.keyMatrix = 1 := by
  obtain ⟨hn, hd, _, _, hK, hir, hic, hBA, hAB⟩ := cipher_dimension key n hc hnew
  have hKr : hc.keyMatrix.r = n := by rw [hK]
  have hKc : hc.keyMatrix.c = n := by rw [hK]
  have hfull := take_full c n hlen
  have hlenD : (cryptText hc.inverseKeyMatrix n c).length = c.length := by
    rw [cryptText_length, Nat.div_mul_cancel hlen]
  have hlenE : (cryptText hc.keyMatrix n c).length = c.length := by
    rw [cryptText_length, Nat.div_mul_cancel hlen]
  refine ⟨⟨cryptText hc.inverseKeyMatrix n c, ?_, cryptText_upper _ _ _, hlenD, ?_⟩,
    ⟨cryptText hc.keyMatrix n c, ?_, cryptText_upper _ _ _, hlenE, ?_⟩, hAB, hBA⟩
  · exact Decrypt_upper hc n hn hd hir hic c (by rw [hfull]; exact hup)
  · rw [Encrypt_upper hc n hn hd hKr hKc _ (cryptText_upper _ _ _),
      padded_of_dvd _ n (by rw [hlenD]; exact hlen),
      cryptText_inverse n hn _ _ hAB c (by rw [hfull]; exact hup), hfull]
  · rw [Encrypt_upper hc n hn hd hKr hKc c hup, padded_of_dvd c n hlen]
  · rw [Decrypt_upper hc n hn hd hir hic _ (isUpperAZ_take _ _ (cryptText_upper _ _ _)),
      cryptText_inverse n hn _ _ hBA c (by rw [hfull]; exact hup), hfull]

/-- Example of the reverse round trip: key "HILL", dimension 2, text "HELP". -/
theorem exact_reverse_round_trip_example :
    ∃ pt, (⟨2, ⟨2, 2, [7, 8, 11, 11]⟩, ⟨2, 2, [25, 22, 1, 23]⟩⟩ : HillCipher).Decrypt
        [72, 69, 76, 80] = .ok pt ∧ isUpperAZ pt ∧
      pt.length = ([72, 69, 76, 80] : GoString).length ∧
      (⟨2, ⟨2, 2, [7, 8, 11, 11]⟩, ⟨2, 2, [25, 22, 1, 23]⟩⟩ : HillCipher).Encrypt pt
        = .ok [72, 69, 76, 80] :=
  (exact_reverse_round_trip [72, 73, 76, 76] [72, 69, 76, 80] 2 _ (by decide) (by decide)
    (by decide)).1

/-! ## Rounded determinants of magnitude `2^53` or more

A `float64` of magnitude `2^53` or more is an even integer, so `int(math.Round(..))` of such a
determinant or scaled cofactor is even.  What the program does with an even value: -/

theorem even_reduceMod26 (r : Int) (h : 2 ∣ r) : 2 ∣ reduceMod26 r := by
  rw [reduceMod26_eq_emod]
  omega

theorem even_determinant_rejected (r : Int) (h : 2 ∣ r) :
    reduceMod26 r = 0 ∨
    calculateModInverse (reduceMod26 r) 26 = .error (.noModularInverse (reduceMod26 r) 26) := by
  rcases calculateModInverse_reduced r with ⟨i, _, _, hg⟩ | ⟨he, _⟩
  · exfalso
    have h2 : (2 : Int) ∣ ((Int.gcd (reduceMod26 r) 26 : Nat) : Int) :=
      Int.dvd_gcd (even_reduceMod26 r h) (by decide)
    rw [hg] at h2
    omega
  · exact Or.inr he

theorem odd_power_residue :
    reduceMod26 (25 ^ 12) = 1 ∧ (2 : Int) ^ 53 < 25 ^ 12 ∧ (25 : Int) ^ 12 < 2 ^ 63 ∧
    ¬ (2 : Int) ∣ 25 ^ 12 ∧ Int.gcd (reduceMod26 (25 ^ 12)) 26 = 1 := by
  decide

/-! ## The claims -/

/-- C4: for every message and block size `n ≥ 1`, `padMessage` returns the message itself
when its length is a multiple of `n`, and otherwise the message followed by exactly
`n - len % n` bytes `'X'` (88); the result starts with the message, and its length is the
least multiple of `n` that is at least the length of the message. -/
theorem padMessage_spec (message : GoString) (n : Nat) (hn : 1 ≤ n) :
    (message.length % n = 0 → padMessage message (n : Int) = .ok message) ∧
    (message.length % n ≠ 0 → padMessage message (n : Int) =
      .ok (message ++ List.replicate (n - message.length % n) 88)) ∧
    ∃ out, padMessage message (n : Int) = .ok out ∧ message <+: out ∧
      n ∣ out.length ∧ message.length ≤ out.length ∧
      ∀ k, n ∣ k → message.length ≤ k → out.length ≤ k := by
  have hn0 : ¬ ((n : Int) = 0) := by omega
  have hmod : (len message).tmod (n : Int) = ((message.length % n : Nat) : Int) := rfl
  have hlt : message.length % n < n := Nat.mod_lt _ (by omega)
  have hA : message.length % n = 0 → padMessage message (n : Int) = .ok message := by
    intro h
    simp only [padMessage, hn0, if_false, hmod, h, Nat.cast_zero, if_true]
  have hB : message.length % n ≠ 0 → padMessage message (n : Int) =
      .ok (message ++ List.replicate (n - message.length % n) 88) := by
    intro h
    have h1 : ¬ (((message.length % n : Nat) : Int) = 0) := by omega
    have h2 : ¬ ((n : Int) - ((message.length % n : Nat) : Int) < 0) := by omega
    have h3 : ((n : Int) - ((message.length % n : Nat) : Int)).toNat = n - message.length % n := by
      omega
    simp only [padMessage, hn0, if_false, hmod, h1, h2, h3]
  refine ⟨hA, hB, ?_⟩
  by_cases h : message.length % n = 0
  · refine ⟨message, hA h, List.prefix_refl _, Nat.dvd_of_mod_eq_zero h, le_refl _, ?_⟩
    intro k _ hk
    exact hk
  · refine ⟨_, hB h, List.prefix_append _ _, ?_, ?_, ?_⟩
    · rw [List.length_append, List.length_replicate]
      have h4 := Nat.div_add_mod message.length n
      refine ⟨message.length / n + 1, ?_⟩
      rw [Nat.mul_add, Nat.mul_one]
      omega
    · rw [List.length_append]; omega
    · intro k hk hle
      rw [List.length_append, List.length_replicate]
      obtain ⟨q, rfl⟩ := hk
      have h4 := Nat.div_add_mod message.length n
      have h5 : message.length / n < q := by
        by_contra hcon
        have h6 : q ≤ message.length / n := by omega
        have h7 : n * q ≤ n * (message.length / n) := Nat.mul_le_mul_left n h6
        have h8 : n * q = message.length := by omega
        rw [← h8, Nat.mul_mod_right] at h
        exact h rfl
      have h9 : n * (message.length / n + 1) ≤ n * q := Nat.mul_le_mul_left n h5
      rw [Nat.mul_add, Nat.mul_one] at h9
      omega

/-- Witness for C4: message "HELP", block size 3. -/
theorem padMessage_spec_witness :
    padMessage [72, 69, 76, 80] 3 = .ok [72, 69, 76, 80, 88, 88] := by
  have h := (padMessage_spec [72, 69, 76, 80] 3 (by decide)).2.1 (by decide)
  exact h

/-- C5: scenario HILL.  `NewHillCipher("HILL", 2)` succeeds with key matrix
`[[7,8],[11,11]]`; its determinant is `-11`, which reduces to `15` mod 26, whose modular
inverse is `7`; `Encrypt("HELP")` returns a 4-letter ciphertext and `Decrypt` of it returns
exactly "HELP". -/
theorem scenario_HILL :
    ∃ hc ct, NewHillCipher [72, 73, 76, 76] 2 = .ok hc ∧
      hc.dimension = 2 ∧
      hc.keyMatrix = ⟨2, 2, [7, 8, 11, 11]⟩ ∧
      Det hc.keyMatrix = .ok (-11) ∧
      reduceMod26 (-11) = 15 ∧
      calculateModInverse 15 26 = .ok 7 ∧
      hc.Encrypt [72, 69, 76, 80] = .ok ct ∧
      ct.length = 4 ∧ isUpperAZ ct ∧
      hc.Decrypt ct = .ok [72, 69, 76, 80] :=
  ⟨⟨2, ⟨2, 2, [7, 8, 11, 11]⟩, ⟨2, 2, [25, 22, 1, 23]⟩⟩, [68, 82, 80, 65],
    by decide, by decide, by decide, by decide, by decide, by decide, by decide, by decide,
    by decide, by decide⟩

/-- C6: scenario GYBN.  `stringToMatrix("GYBN", 2)` is `[[6,24],[1,13]]`, its determinant is
`54`, which reduces to `2` mod 26; `2` has no modular inverse mod 26, and `NewHillCipher`
returns an error and no cipher. -/
theorem scenario_GYBN :
    stringToMatrix [71, 89, 66, 78] 2 = .ok ⟨2, 2, [6, 24, 1, 13]⟩ ∧
    Det ⟨2, 2, [6, 24, 1, 13]⟩ = .ok 54 ∧
    reduceMod26 54 = 2 ∧
    calculateModInverse 2 26 = .error (.noModularInverse 2 26) ∧
    NewHillCipher [71, 89, 66, 78] 2 =
      .error (.wrapped .couldNotCalculateInverseKey
        (.wrapped .cannotFindModularInverse (.noModularInverse 2 26))) :=
  ⟨by decide, by decide, by decide, by decide, by decide⟩

/-- C7: for every integer `a` in `[1,25]`, `calculateModInverse(a, 26)` returns an error
exactly when `gcd(a, 26) ≠ 1`, and otherwise returns the smallest positive integer `i` with
`(a*i) % 26 = 1`, which lies in `[1,25]`. -/
theorem calculateModInverse_spec (a : Int) (h1 : 1 ≤ a) (h25 : a ≤ 25) :
    ((calculateModInverse a 26).isError = true ↔ Int.gcd a 26 ≠ 1) ∧
    (Int.gcd a 26 = 1 → ∃ i : Int, calculateModInverse a 26 = .ok i ∧
      1 ≤ i ∧ i ≤ 25 ∧ (a * i).tmod 26 = 1 ∧
      ∀ k : Int, 1 ≤ k → (a * k).tmod 26 = 1 → i ≤ k) := by
  have ha : ((a.toNat : Nat) : Int) = a := by omega
  have ht := calculateModInverse_26_table ⟨a.toNat, by omega⟩ (by show 1 ≤ a.toNat; omega)
  simp only [ha] at ht
  refine ⟨ht.1, ?_⟩
  intro hg
  obtain ⟨i, hi, hi1, hi2, hmin⟩ := ht.2 hg
  refine ⟨(i.val : Int), hi, by omega, by have := i.isLt; omega, hi2, ?_⟩
  intro k hk1 hk
  by_cases hk25 : k ≤ 25
  · have hkk : ((k.toNat : Nat) : Int) = k := by omega
    have := hmin ⟨k.toNat, by omega⟩ (by show 1 ≤ k.toNat; omega)
      (by show (a * ((k.toNat : Nat) : Int)).tmod 26 = 1; rw [hkk]; exact hk)
    have h3 : i.val ≤ k.toNat := this
    omega
  · have := i.isLt; omega

/-- Witness for C7: `a = 15` has inverse `7`. -/
theorem calculateModInverse_spec_witness :
    (1 : Int) ≤ 15 ∧ (15 : Int) ≤ 25 ∧
    ((calculateModInverse 15 26).isError = true ↔ Int.gcd 15 26 ≠ 1) :=
  ⟨by decide, by decide, (calculateModInverse_spec 15 (by decide) (by decide)).1⟩

/-- Counterexample to C8 as stated: with `n = 2` and the three-letter key "HIL" the call
does not return an error value; it panics in `mat.NewDense`. -/
theorem key_length_mismatch_counterexample :
    (0 : Int) < 2 ∧ isUpperAZ [72, 73, 76] ∧ len [72, 73, 76] ≠ 2 * 2 ∧
    (NewHillCipher [72, 73, 76] 2).isError = false ∧
    NewHillCipher [72, 73, 76] 2 = .panic .matShape :=
  ⟨by decide, by decide, by decide, by decide, by decide⟩

/-- C8 (amended): for every dimension `n > 0` and every key of uppercase letters whose
length differs from `n*n`, `NewHillCipher(key, n)` produces no cipher object and no error
value: building the key matrix panics in `mat.NewDense` with a shape mismatch. -/
theorem NewHillCipher_key_length_mismatch (key : GoString) (n : Int) (hn : 0 < n)
    (hkey : isUpperAZ key) (hlen : len key ≠ n * n) :
    NewHillCipher key n = .panic .matShape ∧ (NewHillCipher key n).isOk = false ∧
    (NewHillCipher key n).isError = false := by
  have h : NewHillCipher key n = .panic .matShape := by
    have h1 : ¬ (n ≤ 0 ∨ n ≤ 0) := by omega
    have h2 : n * n ≠ ((key.map code).length : Int) := by
      rw [List.length_map]; exact fun h => hlen h.symm
    simp only [NewHillCipher, stringToMatrix_upper key n hkey, NewDense, h1, if_false, h2,
      ne_eq, not_false_eq_true, if_true, Result.wrap_panic, Result.panic_bind]
  rw [h]
  exact ⟨rfl, rfl, rfl⟩

/-- Witness for C8 (amended): `n = 2`, key "HIL". -/
theorem NewHillCipher_key_length_mismatch_witness :
    NewHillCipher [72, 73, 76] 2 = .panic .matShape :=
  (NewHillCipher_key_length_mismatch [72, 73, 76] 2 (by decide) (by decide) (by decide)).1

/-- Counterexample to C9 as stated: with dimension `0` and the key "HILL" the call does not
return an error value; it panics in `mat.NewDense`. -/
theorem invalid_dimension_counterexample :
    (0 : Int) ≤ 0 ∧ (NewHillCipher [72, 73, 76, 76] 0).isError = false ∧
    NewHillCipher [72, 73, 76, 76] 0 = .panic .matZeroLength :=
  ⟨by decide, by decide, by decide⟩

/-- C9 (amended): for every dimension `n ≤ 0` and every key, `NewHillCipher(key, n)`
produces no cipher object; it returns an error value when the key has a character outside
`A`..`Z`, and otherwise panics in `mat.NewDense` (zero length for `n = 0`, negative
dimension for `n < 0`). -/
theorem NewHillCipher_invalid_dimension (key : GoString) (n : Int) (hn : n ≤ 0) :
    (NewHillCipher key n).isOk = false ∧
    (¬ isUpperAZ key → NewHillCipher key n =
      .error (.wrapped .couldNotCreateKeyMatrix .invalidCharacterInKey)) ∧
    (isUpperAZ key → NewHillCipher key n =
      .panic (if n = 0 then .matZeroLength else .matNegativeDimension)) := by
  have hA : ¬ isUpperAZ key → NewHillCipher key n =
      .error (.wrapped .couldNotCreateKeyMatrix .invalidCharacterInKey) := by
    intro h
    simp only [NewHillCipher, stringToMatrix_not_upper key n h, Result.wrap_error,
      Result.error_bind]
  have hB : isUpperAZ key → NewHillCipher key n =
      .panic (if n = 0 then .matZeroLength else .matNegativeDimension) := by
    intro h
    have h1 : n ≤ 0 ∨ n ≤ 0 := Or.inl hn
    by_cases h0 : n = 0
    · subst h0
      simp only [NewHillCipher, stringToMatrix_upper key 0 h, NewDense, h1, if_true,
        or_self, Result.wrap_panic, Result.panic_bind]
    · simp only [NewHillCipher, stringToMatrix_upper key n h, NewDense, h1, if_true, h0,
        or_self, if_false, Result.wrap_panic, Result.panic_bind]
  refine ⟨?_, hA, hB⟩
  by_cases h : isUpperAZ key
  · rw [hB h]; rfl
  · rw [hA h]; rfl

/-- Witness for C9 (amended): dimension `-1`, key "HILL". -/
theorem NewHillCipher_invalid_dimension_witness :
    (-1 : Int) ≤ 0 ∧ (NewHillCipher [72, 73, 76, 76] (-1)).isOk = false :=
  ⟨by decide, (NewHillCipher_invalid_dimension [72, 73, 76, 76] (-1) (by decide)).1⟩

/-- C10: for every cipher that `NewHillCipher` returns and every plaintext, `Encrypt`
returns an error if and only if the plaintext has a byte that is not one of `A`..`Z`; for an
all-`A`..`Z` plaintext every step succeeds, the conversion of the result vectors back to text
included. -/
theorem Encrypt_error_iff (key plaintext : GoString) (n : Int) (hc : HillCipher)
    (hnew : NewHillCipher key n = .ok hc) :
    ((hc.Encrypt plaintext).isError = true ↔ ¬ isUpperAZ plaintext) ∧
    (¬ isUpperAZ plaintext → hc.Encrypt plaintext
      = .error (.wrapped .plaintextToVectors .invalidCharacterInText)) ∧
    (isUpperAZ plaintext → ∃ paddedText vectors encryptedVectors ct,
      padMessage plaintext hc.dimension = .ok paddedText ∧
      textToVectors paddedText hc.dimension = .ok vectors ∧
      mulVectors hc.dimension hc.keyMatrix vectors = .ok encryptedVectors ∧
      vectorsToText (applyMod26ToMatrices encryptedVectors) = .ok ct ∧
      hc.Encrypt plaintext = .ok ct) := by
  obtain ⟨m, hm, hnm, hd, _, _, hK, _, hir, hic, hBA, _⟩ := NewHillCipher_ok key n hc hnew
  have hKr : hc.keyMatrix.r = m := by rw [hK]
  have hKc : hc.keyMatrix.c = m := by rw [hK]
  have hA := Encrypt_not_upper hc m hm hd plaintext
  have hB := Encrypt_upper hc m hm hd hKr hKc plaintext
  refine ⟨?_, hA, ?_⟩
  · by_cases hup : isUpperAZ plaintext
    · rw [hB hup]
      exact ⟨fun h => Bool.noConfusion h, fun h => absurd hup h⟩
    · rw [hA hup]
      exact ⟨fun _ => hup, fun _ => rfl⟩
  · intro hup
    have hpu : isUpperAZ ((padded plaintext m).take
        ((padded plaintext m).length / m * m)) :=
      isUpperAZ_take _ _ ((padded_upper plaintext m).mpr hup)
    obtain ⟨vectors, outVectors, h1, h2, h3⟩ :=
      crypt_stages m hm hc.keyMatrix hKr hKc (padded plaintext m) hpu
    rw [hd]
    exact ⟨padded plaintext m, vectors, outVectors, _, padMessage_eq plaintext m hm, h1, h2, h3,
      hB hup⟩

/-- Witness for C10: key "HILL", dimension 2, plaintext "Hi" with a lowercase letter. -/
theorem Encrypt_error_iff_witness :
    ((⟨2, ⟨2, 2, [7, 8, 11, 11]⟩, ⟨2, 2, [25, 22, 1, 23]⟩⟩ : HillCipher).Encrypt
      [72, 105]).isError = true ↔ ¬ isUpperAZ [72, 105] :=
  (Encrypt_error_iff [72, 73, 76, 76] [72, 105] 2 _ (by decide)).1

/-- C11: for every cipher that `NewHillCipher` returns, of dimension `n`, and every
ciphertext of letters `A`..`Z` (whatever its length), `Decrypt` returns no error, its output
has length `floor(len/n)*n`, and it equals `Decrypt` of the first `floor(len/n)*n` bytes;
the trailing `len mod n` bytes are dropped and any other trailing bytes give the same
result. -/
theorem Decrypt_truncates (key ciphertext : GoString) (dim : Int) (hc : HillCipher)
    (hnew : NewHillCipher key dim = .ok hc) (hup : isUpperAZ ciphertext) :
    ∃ (n : Nat) (out : GoString), dim = (n : Int) ∧ 1 ≤ n ∧
      hc.Decrypt ciphertext = .ok out ∧
      out.length = ciphertext.length / n * n ∧
      hc.Decrypt (ciphertext.take (ciphertext.length / n * n)) = .ok out ∧
      ∀ tail : GoString, tail.length < n →
        hc.Decrypt (ciphertext.take (ciphertext.length / n * n) ++ tail) = .ok out := by
  obtain ⟨m, hm, hnm, hd, _, _, _, _, hir, hic, _, _⟩ := NewHillCipher_ok key dim hc hnew
  have hq : ciphertext.length / m * m ≤ ciphertext.length := Nat.div_mul_le_self _ _
  have hl : (ciphertext.take (ciphertext.length / m * m)).length = ciphertext.length / m * m := by
    rw [List.length_take]; omega
  refine ⟨m, cryptText hc.inverseKeyMatrix m ciphertext, hnm, hm,
    Decrypt_upper hc m hm hd hir hic _ (isUpperAZ_take _ _ hup), cryptText_length _ _ _, ?_, ?_⟩
  · rw [Decrypt_upper hc m hm hd hir hic _ (isUpperAZ_take _ _ (isUpperAZ_take _ _ hup)),
      cryptText_take _ m hm]
  · intro tail htail
    have hlen : (ciphertext.take (ciphertext.length / m * m) ++ tail).length / m
        = ciphertext.length / m := by
      rw [List.length_append, hl, Nat.add_comm, Nat.add_mul_div_right _ _ (by omega : 0 < m),
        Nat.div_eq_of_lt htail, Nat.zero_add]
    have htk : (ciphertext.take (ciphertext.length / m * m) ++ tail).take
        ((ciphertext.take (ciphertext.length / m * m) ++ tail).length / m * m)
        = ciphertext.take (ciphertext.length / m * m) := by
      rw [hlen, List.take_left' hl]
    rw [Decrypt_upper hc m hm hd hir hic _ (by rw [htk]; exact isUpperAZ_take _ _ hup),
      ← cryptText_take _ m hm, htk, ← cryptText_take _ m hm ciphertext]

/-- Witness for C11: key "HILL", dimension 2, ciphertext "DRP" of length 3. -/
theorem Decrypt_truncates_witness :
    ∃ (n : Nat) (out : GoString), (2 : Int) = (n : Int) ∧ 1 ≤ n ∧
      (⟨2, ⟨2, 2, [7, 8, 11, 11]⟩, ⟨2, 2, [25, 22, 1, 23]⟩⟩ : HillCipher).Decrypt [68, 82, 80]
        = .ok out ∧
      out.length = ([68, 82, 80] : GoString).length / n * n ∧
      (⟨2, ⟨2, 2, [7, 8, 11, 11]⟩, ⟨2, 2, [25, 22, 1, 23]⟩⟩ : HillCipher).Decrypt
        (([68, 82, 80] : GoString).take (([68, 82, 80] : GoString).length / n * n)) = .ok out ∧
      ∀ tail : GoString, tail.length < n →
        (⟨2, ⟨2, 2, [7, 8, 11, 11]⟩, ⟨2, 2, [25, 22, 1, 23]⟩⟩ : HillCipher).Decrypt
          (([68, 82, 80] : GoString).take (([68, 82, 80] : GoString).length / n * n) ++ tail)
          = .ok out :=
  Decrypt_truncates [72, 73, 76, 76] [68, 82, 80] 2 _ (by decide) (by decide)

/-- C12: for every cipher that `NewHillCipher` returns, of dimension `n`, and every plaintext
of letters `A`..`Z`, `Encrypt(plaintext)` has the length of `padMessage(plaintext, n)`, which
is a multiple of `n`, and every byte of it is an uppercase letter `A`..`Z`. -/
theorem Encrypt_shape (key plaintext : GoString) (dim : Int) (hc : HillCipher)
    (hnew : NewHillCipher key dim = .ok hc) (hup : isUpperAZ plaintext) :
    ∃ (n : Nat) (ct paddedText : GoString), dim = (n : Int) ∧ 1 ≤ n ∧
      hc.Encrypt plaintext = .ok ct ∧ padMessage plaintext dim = .ok paddedText ∧
      ct.length = paddedText.length ∧ n ∣ ct.length ∧ isUpperAZ ct := by
  obtain ⟨m, hm, hnm, hd, _, _, hK, _, _, _, _, _⟩ := NewHillCipher_ok key dim hc hnew
  have hKr : hc.keyMatrix.r = m := by rw [hK]
  have hKc : hc.keyMatrix.c = m := by rw [hK]
  refine ⟨m, cryptText hc.keyMatrix m (padded plaintext m), padded plaintext m, hnm, hm,
    Encrypt_upper hc m hm hd hKr hKc plaintext hup, by rw [hnm]; exact padMessage_eq _ m hm,
    ?_, ?_, cryptText_upper _ _ _⟩
  · rw [cryptText_length, padded_length _ m hm]
  · rw [cryptText_length]
    exact Dvd.intro_left _ rfl

/-- Witness for C12: key "HILL", dimension 2, plaintext "HEL". -/
theorem Encrypt_shape_witness :
    ∃ (n : Nat) (ct paddedText : GoString), (2 : Int) = (n : Int) ∧ 1 ≤ n ∧
      (⟨2, ⟨2, 2, [7, 8, 11, 11]⟩, ⟨2, 2, [25, 22, 1, 23]⟩⟩ : HillCipher).Encrypt [72, 69, 76]
        = .ok ct ∧ padMessage [72, 69, 76] 2 = .ok paddedText ∧
      ct.length = paddedText.length ∧ n ∣ ct.length ∧ isUpperAZ ct :=
  Encrypt_shape [72, 73, 76, 76] [72, 69, 76] 2 _ (by decide) (by decide)

/-- C13: for every cipher that `NewHillCipher(key, n)` returns, `keyMatrix` and
`inverseKeyMatrix` are both `n`-by-`n` (with `n*n` stored entries) and every entry of each is
an integer in `[0,25]`. -/
theorem matrices_in_range (key : GoString) (dim : Int) (hc : HillCipher)
    (hnew : NewHillCipher key dim = .ok hc) :
    ∃ n : Nat, dim = (n : Int) ∧ 1 ≤ n ∧
      hc.keyMatrix.r = n ∧ hc.keyMatrix.c = n ∧ hc.keyMatrix.data.length = n * n ∧
      (∀ x ∈ hc.keyMatrix.data, 0 ≤ x ∧ x ≤ 25) ∧
      hc.inverseKeyMatrix.r = n ∧ hc.inverseKeyMatrix.c = n ∧
      hc.inverseKeyMatrix.data.length = n * n ∧
      (∀ x ∈ hc.inverseKeyMatrix.data, 0 ≤ x ∧ x ≤ 25) := by
  obtain ⟨m, hm, hnm, _, hup, hlen, hK, hinv, _, _, _, _⟩ := NewHillCipher_ok key dim hc hnew
  rw [hK] at hinv
  obtain ⟨h1, h2, h3, h4⟩ := inverse_entries m _ hm _ hinv
  refine ⟨m, hnm, hm, by rw [hK], by rw [hK], by rw [hK]; simp [hlen], ?_, h1, h2, h3, h4⟩
  rw [hK]
  intro x hx
  simp only [List.mem_map] at hx
  obtain ⟨b, hb, rfl⟩ := hx
  exact code_range b (hup b hb)

/-- Witness for C13: key "HILL", dimension 2. -/
theorem matrices_in_range_witness :
    ∃ n : Nat, (2 : Int) = (n : Int) ∧ 1 ≤ n ∧
      (⟨2, 2, [7, 8, 11, 11]⟩ : Dense).r = n ∧ (⟨2, 2, [7, 8, 11, 11]⟩ : Dense).c = n ∧
      (⟨2, 2, [7, 8, 11, 11]⟩ : Dense).data.length = n * n ∧
      (∀ x ∈ (⟨2, 2, [7, 8, 11, 11]⟩ : Dense).data, 0 ≤ x ∧ x ≤ 25) ∧
      (⟨2, 2, [25, 22, 1, 23]⟩ : Dense).r = n ∧ (⟨2, 2, [25, 22, 1, 23]⟩ : Dense).c = n ∧
      (⟨2, 2, [25, 22, 1, 23]⟩ : Dense).data.length = n * n ∧
      (∀ x ∈ (⟨2, 2, [25, 22, 1, 23]⟩ : Dense).data, 0 ≤ x ∧ x ≤ 25) :=
  matrices_in_range [72, 73, 76, 76] 2
    ⟨2, ⟨2, 2, [7, 8, 11, 11]⟩, ⟨2, 2, [25, 22, 1, 23]⟩⟩ (by decide)

/-- C14: for every cipher object, `Encrypt("")` and `Decrypt("")` both return the empty
string and no error. -/
theorem empty_input (hc : HillCipher) :
    hc.Encrypt [] = .ok [] ∧ hc.Decrypt [] = .ok [] :=
  ⟨rfl, rfl⟩

/-- C15: for every integer `x`, the mod-26 reduction `reduceMod26` (truncated remainder
`x % 26`, plus 26 when negative), which `applyMod26` applies to every entry and
`calculateInverseKeyMatrix` to the determinant, yields `r` with `0 ≤ r ≤ 25`, `r` congruent
to `x` modulo 26, and `r = ((x % 26) + 26) % 26` with the truncated `%`. -/
theorem reduceMod26_residue (x : Int) :
    0 ≤ reduceMod26 x ∧ reduceMod26 x ≤ 25 ∧ (26 : Int) ∣ (x - reduceMod26 x) ∧
    reduceMod26 x = ((x.tmod 26) + 26).tmod 26 ∧
    (∀ m : Dense, m.data.length = m.r * m.c →
      applyMod26 m = ⟨m.r, m.c, m.data.map reduceMod26⟩) := by
  have hr := reduceMod26_range x
  refine ⟨hr.1, hr.2, ?_, ?_, fun m hm => applyMod26_eq m hm⟩
  · rw [reduceMod26_eq_emod]
    exact Int.dvd_sub_of_emod_eq rfl
  · have h1 : 0 ≤ x.tmod 26 + 26 := by
      have := reduceMod26_eq_emod x
      unfold reduceMod26 at this
      simp only at this
      split at this <;> omega
    rw [Int.tmod_eq_emod h1 (by decide)]
    have := reduceMod26_eq_emod x
    unfold reduceMod26 at this ⊢
    simp only at this ⊢
    split at this <;> omega

/-- C16: for every cipher that `NewHillCipher(key, n)` returns and every plaintext of
letters `A`..`Z` with padded form `p = padMessage(plaintext, n)`, the ciphertext byte at
position `b*n + i` (block `b`, row `i < n`) is the letter whose code is
`(sum over j < n of code(key[i*n + j]) * code(p[b*n + j])) mod 26`: the key is laid out
row-major and each block is multiplied by the key matrix and reduced mod 26. -/
theorem encryption_formula (key plaintext : GoString) (n : Nat) (hc : HillCipher)
    (hnew : NewHillCipher key (n : Int) = .ok hc) (hup : isUpperAZ plaintext) :
    ∃ ct p, padMessage plaintext (n : Int) = .ok p ∧ hc.Encrypt plaintext = .ok ct ∧
      ct.length = p.length ∧
      (∀ i j, i < n → j < n → hc.keyMatrix.At i j = code (key.getD (i * n + j) 0)) ∧
      ∀ b i, i < n → b * n + i < p.length →
        ct.getD (b * n + i) 0 = letter (((List.range n).map (fun j =>
          code (key.getD (i * n + j) 0) * code (p.getD (b * n + j) 0))).sum % 26) ∧
        code (ct.getD (b * n + i) 0) = ((List.range n).map (fun j =>
          code (key.getD (i * n + j) 0) * code (p.getD (b * n + j) 0))).sum % 26 := by
  obtain ⟨hn, hd, _, hklen, hK, _, _, _, _⟩ := cipher_dimension key n hc hnew
  have hKr : hc.keyMatrix.r = n := by rw [hK]
  have hKc : hc.keyMatrix.c = n := by rw [hK]
  have hAt : ∀ i j, i < n → j < n → hc.keyMatrix.At i j = code (key.getD (i * n + j) 0) := by
    intro i j hi hj
    rw [hK]
    show (key.map code).getD (i * n + j) 0 = _
    apply getD_map_code
    rw [hklen]
    have : (i + 1) * n ≤ n * n := Nat.mul_le_mul_right n hi
    rw [Nat.succ_mul] at this
    omega
  have hlen : (cryptText hc.keyMatrix n (padded plaintext n)).length
      = (padded plaintext n).length := by
    rw [cryptText_length, padded_length _ n hn]
  refine ⟨cryptText hc.keyMatrix n (padded plaintext n), padded plaintext n,
    padMessage_eq plaintext n hn, Encrypt_upper hc n hn hd hKr hKc plaintext hup, hlen, hAt, ?_⟩
  intro b i hi hb
  have hsum : ((List.range n).map (fun k => hc.keyMatrix.At i k *
        code ((padded plaintext n).getD (b * n + k) 0)))
      = (List.range n).map (fun j => code (key.getD (i * n + j) 0) *
        code ((padded plaintext n).getD (b * n + j) 0)) := by
    apply List.map_congr_left
    intro k hk
    rw [List.mem_range] at hk
    rw [hAt i k hi hk]
  have hget := cryptText_getD hc.keyMatrix n (padded plaintext n) b i hi
    (by rw [padded_length _ n hn]; exact hb)
  rw [hsum, reduceMod26_eq_emod] at hget
  refine ⟨hget, ?_⟩
  rw [hget]
  apply code_letter <;> omega

/-- Witness for C16: key "HILL", dimension 2, plaintext "HELP". -/
theorem encryption_formula_witness :
    ∃ ct p, padMessage [72, 69, 76, 80] ((2 : Nat) : Int) = .ok p ∧
      (⟨2, ⟨2, 2, [7, 8, 11, 11]⟩, ⟨2, 2, [25, 22, 1, 23]⟩⟩ : HillCipher).Encrypt
        [72, 69, 76, 80] = .ok ct ∧
      ct.length = p.length ∧
      (∀ i j, i < 2 → j < 2 → (⟨2, 2, [7, 8, 11, 11]⟩ : Dense).At i j
        = code (([72, 73, 76, 76] : GoString).getD (i * 2 + j) 0)) ∧
      ∀ b i, i < 2 → b * 2 + i < p.length →
        ct.getD (b * 2 + i) 0 = letter (((List.range 2).map (fun j =>
          code (([72, 73, 76, 76] : GoString).getD (i * 2 + j) 0)
            * code (p.getD (b * 2 + j) 0))).sum % 26) ∧
        code (ct.getD (b * 2 + i) 0) = ((List.range 2).map (fun j =>
          code (([72, 73, 76, 76] : GoString).getD (i * 2 + j) 0)
            * code (p.getD (b * 2 + j) 0))).sum % 26 :=
  encryption_formula [72, 73, 76, 76] [72, 69, 76, 80] 2
    ⟨2, ⟨2, 2, [7, 8, 11, 11]⟩, ⟨2, 2, [25, 22, 1, 23]⟩⟩ (by decide) (by decide)

/-- C20: for every cipher that `NewHillCipher(key, n)` returns and all texts `p`, `q` of
letters `A`..`Z` where the length of `p` is a multiple of `n`:
`Encrypt(p ++ q) = Encrypt(p) ++ Encrypt(q)`, `Encrypt(padMessage(q, n)) = Encrypt(q)`, and
`Decrypt(p ++ q) = Decrypt(p) ++ Decrypt(q)`. -/
theorem block_independence (key p q : GoString) (n : Nat) (hc : HillCipher)
    (hnew : NewHillCipher key (n : Int) = .ok hc) (hp : isUpperAZ p) (hq : isUpperAZ q)
    (hlen : n ∣ p.length) :
    ∃ cp cq dp dq paddedQ, hc.Encrypt p = .ok cp ∧ hc.Encrypt q = .ok cq ∧
      hc.Encrypt (p ++ q) = .ok (cp ++ cq) ∧
      padMessage q (n : Int) = .ok paddedQ ∧ hc.Encrypt paddedQ = .ok cq ∧
      hc.Decrypt p = .ok dp ∧ hc.Decrypt q = .ok dq ∧
      hc.Decrypt (p ++ q) = .ok (dp ++ dq) := by
  obtain ⟨hn, hd, _, _, hK, hir, hic, _, _⟩ := cipher_dimension key n hc hnew
  have hKr : hc.keyMatrix.r = n := by rw [hK]
  have hKc : hc.keyMatrix.c = n := by rw [hK]
  have hpq : isUpperAZ (p ++ q) := (isUpperAZ_append p q).mpr ⟨hp, hq⟩
  refine ⟨cryptText hc.keyMatrix n (padded p n), cryptText hc.keyMatrix n (padded q n),
    cryptText hc.inverseKeyMatrix n p, cryptText hc.inverseKeyMatrix n q, padded q n,
    Encrypt_upper hc n hn hd hKr hKc p hp, Encrypt_upper hc n hn hd hKr hKc q hq, ?_,
    padMessage_eq q n hn, ?_,
    Decrypt_upper hc n hn hd hir hic p (isUpperAZ_take _ _ hp),
    Decrypt_upper hc n hn hd hir hic q (isUpperAZ_take _ _ hq), ?_⟩
  · rw [Encrypt_upper hc n hn hd hKr hKc _ hpq, padded_append p q n hlen,
      cryptText_append _ n hn _ _ hlen, padded_of_dvd p n hlen]
  · rw [Encrypt_upper hc n hn hd hKr hKc _ ((padded_upper q n).mpr hq),
      padded_of_dvd _ n (padded_dvd q n hn)]
  · rw [Decrypt_upper hc n hn hd hir hic _ (isUpperAZ_take _ _ hpq),
      cryptText_append _ n hn _ _ hlen]

/-- Witness for C20: key "HILL", dimension 2, `p` = "HELP", `q` = "HEL". -/
theorem block_independence_witness :
    ∃ cp cq dp dq paddedQ,
      (⟨2, ⟨2, 2, [7, 8, 11, 11]⟩, ⟨2, 2, [25, 22, 1, 23]⟩⟩ : HillCipher).Encrypt
        [72, 69, 76, 80] = .ok cp ∧
      (⟨2, ⟨2, 2, [7, 8, 11, 11]⟩, ⟨2, 2, [25, 22, 1, 23]⟩⟩ : HillCipher).Encrypt
        [72, 69, 76] = .ok cq ∧
      (⟨2, ⟨2, 2, [7, 8, 11, 11]⟩, ⟨2, 2, [25, 22, 1, 23]⟩⟩ : HillCipher).Encrypt
        ([72, 69, 76, 80] ++ [72, 69, 76]) = .ok (cp ++ cq) ∧
      padMessage [72, 69, 76] ((2 : Nat) : Int) = .ok paddedQ ∧
      (⟨2, ⟨2, 2, [7, 8, 11, 11]⟩, ⟨2, 2, [25, 22, 1, 23]⟩⟩ : HillCipher).Encrypt paddedQ
        = .ok cq ∧
      (⟨2, ⟨2, 2, [7, 8, 11, 11]⟩, ⟨2, 2, [25, 22, 1, 23]⟩⟩ : HillCipher).Decrypt
        [72, 69, 76, 80] = .ok dp ∧
      (⟨2, ⟨2, 2, [7, 8, 11, 11]⟩, ⟨2, 2, [25, 22, 1, 23]⟩⟩ : HillCipher).Decrypt
        [72, 69, 76] = .ok dq ∧
      (⟨2, ⟨2, 2, [7, 8, 11, 11]⟩, ⟨2, 2, [25, 22, 1, 23]⟩⟩ : HillCipher).Decrypt
        ([72, 69, 76, 80] ++ [72, 69, 76]) = .ok (dp ++ dq) :=
  block_independence [72, 73, 76, 76] [72, 69, 76, 80] [72, 69, 76] 2 _ (by decide)
    (by decide) (by decide) (by decide)

end Hill
